import Mathlib

/-!
# Verification of the Theseus `tls_initializer` crate

Shallow embedding of `kernel/tls_initializer/src/lib.rs` together with proofs
about its specification.  Machine integers (`usize` on a 64-bit target) are
modelled as `Nat` with explicit bounds at `U = 2 ^ 64`; arithmetic that the
Rust code performs with overflow checks is modelled by `checkedAdd` /
`checkedSub`, and a checked-arithmetic failure (or any other `panic!`,
`assert_eq!` failure or out-of-bounds `unwrap`) is modelled by the `halt`
outcome (for the registration operations) or by `none` (for `get_data`).

The `rangemap::RangeMap` container is modelled as a sorted list of
non-overlapping entries; `rmInsert` reproduces the crate's documented insert
semantics (overlapping portions of existing ranges are removed; values are
compared by `Arc::ptr_eq`, and since every insertion wraps a freshly created
`Arc`, two stored values never compare equal, so the crate's
coalescing-of-equal-values behaviour never fires and is not modelled).
`rmGaps` models `RangeMap::gaps`: the maximal uncovered subranges of an outer
range, in ascending order.  `contains_key` is modelled by `containsKey`.

A `LoadedSection` (from the external `crate_metadata` crate) is modelled by
the attributes the spec gives it: a byte size, a content kind
(`TlsData` for literal-data `.tdata` sections, `TlsBss` for zero-fill `.tbss`
sections), the backing bytes reachable through `mapped_pages` at
`mapped_pages_offset` (field `data`), and the mutable `virt_addr` field.

`get_data` takes an extra parameter `base`: the machine address at which the
fresh copy of the data image happens to be allocated.  The TLS self pointer
written into the image is then `base + end_of_static_sections`, exactly the
address of the self-pointer slot inside the new buffer
(`dest_slice.as_ptr() as usize` in the source).
-/

/-- `usize::MAX + 1` on the 64-bit targets Theseus supports. -/
def U : Nat := 2 ^ 64

/-- `size_of::<usize>()` on a 64-bit target. -/
def POINTER_SIZE : Nat := 8

/-- The section kinds relevant to this crate (`SectionType` in
`crate_metadata`): literal TLS data (`.tdata`) and zero-fill TLS bss
(`.tbss`). -/
inductive SectionType where
  | TlsData
  | TlsBss
deriving DecidableEq

/-- Modelled from the spec: a section reference carries a byte size, a content
kind, backing bytes (readable through its mapped pages), and a mutable
virtual-offset field assigned by this subsystem.  `data` holds the bytes found
at `mapped_pages_offset` in the section's mapped pages. -/
structure LoadedSection where
  size : Nat
  typ : SectionType
  data : List Nat
  virt_addr : Nat
deriving DecidableEq

/-- One stored range of a `RangeMap<usize, StrongSectionRefWrapper>`:
the half-open interval `[start, stop)` mapped to a section reference. -/
structure RangeEntry where
  start : Nat
  stop : Nat
  sec : LoadedSection
deriving DecidableEq

/-- The status of the cached TLS data image. -/
inductive CacheStatus where
  | Fresh
  | Invalidated
deriving DecidableEq

/-- The `TlsInitializer` state: cached canonical image, its status, the static
and dynamic offset registries and their extents. -/
structure TlsInitializer where
  data_cache : List Nat
  cache_status : CacheStatus
  static_section_offsets : List RangeEntry
  end_of_static_sections : Nat
  dynamic_section_offsets : List RangeEntry
  end_of_dynamic_sections : Nat
deriving DecidableEq

/-- Result of a `&mut self` operation that can exit three ways: a Rust
`panic!` / overflow abort (`halt`), `Err(())` with the state the operation
leaves behind (`err`), or `Ok` with a return value and the new state. -/
inductive RRes (α : Type) where
  | halt : RRes α
  | err : TlsInitializer → RRes α
  | ok : α → TlsInitializer → RRes α
deriving DecidableEq

def RRes.isErr {α : Type} : RRes α → Bool
  | .err _ => true
  | _ => false

def RRes.isOk {α : Type} : RRes α → Bool
  | .ok _ _ => true
  | _ => false

/-- The caller-visible error payload: both registration operations return
`Result<_, ()>`, so every failure surfaces as the same unit value. -/
def RRes.errUnit {α : Type} : RRes α → Option Unit
  | .err _ => some ()
  | _ => none

/-- `usize` addition with overflow check (a Rust debug/kernel-profile `+`). -/
def checkedAdd (a b : Nat) : Option Nat :=
  if a + b < U then some (a + b) else none

/-- `usize` subtraction with underflow check. -/
def checkedSub (a b : Nat) : Option Nat :=
  if b ≤ a then some (a - b) else none

/-- `usize::wrapping_neg`. -/
def wrappingNeg (a : Nat) : Nat := (U - a % U) % U

/-- Modelled from the spec (the crate `memory_structs` is not part of the
provided sources): a `usize` is a valid x86_64 `VirtualAddress` iff it is
canonical, i.e. bits 47..63 are all equal — the value lies in
`[0, 2^47) ∪ [2^64 - 2^47, 2^64)`. -/
def isCanonical (a : Nat) : Bool :=
  decide (a < 2 ^ 47) || (decide (2 ^ 64 - 2 ^ 47 ≤ a) && decide (a < 2 ^ 64))

/-- Modelled from the spec: `VirtualAddress::new` returns the address iff it
is canonical. -/
def VirtualAddress.new (a : Nat) : Option Nat :=
  if isCanonical a then some a else none

/-- `RangeMap::contains_key`: is the point `k` covered by a stored range? -/
def containsKey (m : List RangeEntry) (k : Nat) : Bool :=
  m.any fun e => decide (e.start ≤ k) && decide (k < e.stop)

/-- The part of a stored entry that survives inserting the range `[s, e)`:
the portion below `s` and the portion at or above `e`
(`rangemap`'s overwrite-on-insert semantics). -/
def clip (s e : Nat) (ent : RangeEntry) : List RangeEntry :=
  (if ent.start < s then [{ ent with stop := min ent.stop s }] else []) ++
    (if e < ent.stop then [{ ent with start := max ent.start e }] else [])

/-- Clip every stored entry against a newly inserted range. -/
def clipAll (s e : Nat) : List RangeEntry → List RangeEntry
  | [] => []
  | ent :: rest => clip s e ent ++ clipAll s e rest

/-- Insert an entry into a list sorted by `start`, keeping it sorted. -/
def sortedInsert (x : RangeEntry) : List RangeEntry → List RangeEntry
  | [] => [x]
  | y :: ys => if x.start ≤ y.start then x :: y :: ys else y :: sortedInsert x ys

/-- `RangeMap::insert`: remove every overlapping portion of stored ranges,
then store `[s, e) ↦ v`.  (`RangeMap::insert` panics when `s ≥ e`; that guard
lives at the call sites, which model the panic.) -/
def rmInsert (s e : Nat) (v : LoadedSection) (m : List RangeEntry) : List RangeEntry :=
  sortedInsert ⟨s, e, v⟩ (clipAll s e m)

/-- `RangeMap::gaps`: the maximal subranges of `[lo, hi)` not covered by any
stored range, in ascending order (the registry is sorted). -/
def rmGaps (hi : Nat) : Nat → List RangeEntry → List (Nat × Nat)
  | lo, [] => if lo < hi then [(lo, hi)] else []
  | lo, e :: rest =>
    if e.stop ≤ lo then rmGaps hi lo rest
    else if hi ≤ e.start then (if lo < hi then [(lo, hi)] else [])
    else (if lo < e.start then [(lo, e.start)] else []) ++ rmGaps hi e.stop rest

/-- Mathematical `next_multiple_of` (the least multiple of `a` that is
`≥ x`, for `a > 0`). -/
def roundUpM (x a : Nat) : Nat := (x + a - 1) / a * a

/-- The gap-scanning loop of `add_new_dynamic_tls_section`.
`none` models a panic inside `next_multiple_of` (zero alignment, or overflow
of the rounded value or of `aligned_start + section.size`); `some none` means
no gap fits; `some (some off)` is the first-fit offset. -/
def findFit : Nat → Nat → List (Nat × Nat) → Option (Option Nat)
  | _, _, [] => some none
  | a, sz, g :: rest =>
    if a = 0 then none
    else
      if roundUpM g.1 a < U then
        if roundUpM g.1 a + sz < U then
          if roundUpM g.1 a + sz ≤ g.2 then some (some (roundUpM g.1 a))
          else findFit a sz rest
        else none
      else none

/-- `TlsInitializer::empty`. -/
def TlsInitializer.empty : TlsInitializer :=
  { data_cache := []
    cache_status := .Invalidated
    static_section_offsets := []
    end_of_static_sections := 0
    dynamic_section_offsets := []
    end_of_dynamic_sections := 0 }

/-- `TlsInitializer::add_existing_static_tls_section`. -/
def add_existing_static_tls_section (st : TlsInitializer) (tls_section : LoadedSection)
    (offset total_static_tls_size : Nat) : RRes LoadedSection :=
  match checkedAdd offset tls_section.size with
  | none => .halt
  | some rend =>
    if containsKey st.static_section_offsets offset then .err st
    else
      match checkedSub rend 1 with
      | none => .halt
      | some rendPred =>
        if containsKey st.static_section_offsets rendPred then .err st
        else
          match checkedSub total_static_tls_size offset with
          | none => .halt
          | some diff =>
            match VirtualAddress.new (wrappingNeg diff) with
            | none => .err st
            | some sOff =>
              let sec : LoadedSection := { tls_section with virt_addr := sOff }
              if offset < rend then
                .ok sec { st with
                  static_section_offsets :=
                    rmInsert offset rend sec st.static_section_offsets
                  end_of_static_sections := max st.end_of_static_sections rend
                  cache_status := .Invalidated }
              else .halt

/-- `TlsInitializer::add_new_dynamic_tls_section`. -/
def add_new_dynamic_tls_section (st : TlsInitializer) (sectn : LoadedSection)
    (alignment : Nat) : RRes (Nat × LoadedSection) :=
  match findFit alignment sectn.size
      (rmGaps (U - 1) POINTER_SIZE st.dynamic_section_offsets) with
  | none => .halt
  | some none => .err st
  | some (some startIdx) =>
    match checkedAdd startIdx sectn.size with
    | none => .halt
    | some rend =>
      match VirtualAddress.new startIdx with
      | none => .err st
      | some va =>
        let sec : LoadedSection := { sectn with virt_addr := va }
        if startIdx < rend then
          .ok (startIdx, sec) { st with
            dynamic_section_offsets :=
              rmInsert startIdx rend sec st.dynamic_section_offsets
            end_of_dynamic_sections := max st.end_of_dynamic_sections rend
            cache_status := .Invalidated }
        else .halt

/-- `TlsInitializer::invalidate`. -/
def TlsInitializer.invalidate (st : TlsInitializer) : TlsInitializer :=
  { st with cache_status := .Invalidated }

/-- The bytes `copy_tls_section_data` emits for one section:
`mapped_pages.as_slice(mapped_pages_offset, size)` for a `TlsData` section
(`none` models the `unwrap` panic when the backing bytes are too short),
`size` zero bytes for a `.tbss` section. -/
def secBytes (sec : LoadedSection) : Option (List Nat) :=
  match sec.typ with
  | .TlsData => if sec.size ≤ sec.data.length then some (sec.data.take sec.size) else none
  | .TlsBss => some (List.replicate sec.size 0)

/-- The internal `copy_tls_section_data` helper of `get_data`: walk a registry
in ascending range order, emitting zero padding up to each range's start and
then the section's bytes; returns the extended buffer and the final
`end_of_previous_range`. -/
def copy_tls_section_data : List RangeEntry → List Nat → Nat → Option (List Nat × Nat)
  | [], acc, endPrev => some (acc, endPrev)
  | e :: rest, acc, _endPrev =>
    match secBytes e.sec with
    | none => none
    | some bs =>
      copy_tls_section_data rest (acc ++ List.replicate (e.start - _endPrev) 0 ++ bs) e.stop

/-- The cache-rebuild step of `get_data`: static sections, then the reserved
(zeroed) self-pointer slot, then dynamic sections; `none` models a failed
`assert_eq!` or a failed `as_slice(..).unwrap()`. -/
def rebuild (st : TlsInitializer) : Option (List Nat) :=
  match copy_tls_section_data st.static_section_offsets [] 0 with
  | none => none
  | some (d1, ep1) =>
    if ep1 = st.end_of_static_sections then
      let d2 := d1 ++ List.replicate POINTER_SIZE 0
      match copy_tls_section_data st.dynamic_section_offsets d2 POINTER_SIZE with
      | none => none
      | some (d3, ep2) =>
        if st.end_of_dynamic_sections = 0 then some d3
        else if ep2 = st.end_of_dynamic_sections then some d3
        else none
    else none

/-- The native-endian byte encoding of a `usize` value
(`usize::to_ne_bytes`; little-endian on both supported targets). -/
def neBytes (v : Nat) : List Nat :=
  (List.range POINTER_SIZE).map fun i => v / 256 ^ i % 256

/-- Overwrite `bs.length` bytes of `l` starting at offset `o`
(`dest_slice.copy_from_slice`). -/
def writeBytes (l : List Nat) (o : Nat) (bs : List Nat) : List Nat :=
  l.take o ++ bs ++ l.drop (o + bs.length)

/-- A generated `TlsDataImage`: the opaque per-task buffer (absent when there
is no TLS data) and the TLS self-pointer value. -/
structure TlsDataImage where
  _data : Option (List Nat)
  ptr : Nat
deriving DecidableEq

/-- `TlsInitializer::get_data`, parameterised by the machine address `base` at
which the fresh copy of the image is allocated.  Returns `none` on a Rust
panic (checked-arithmetic overflow, a failed `assert_eq!`, a failed
`as_slice(..).unwrap()`, or the out-of-bounds self-pointer-slot `panic!`). -/
def get_data (st : TlsInitializer) (base : Nat) :
    Option (TlsDataImage × TlsInitializer) :=
  match checkedAdd st.end_of_static_sections st.end_of_dynamic_sections with
  | none => none
  | some total =>
    if total = 0 then some (⟨none, 0⟩, st)
    else
      match checkedAdd total POINTER_SIZE with
      | none => none
      | some _required_capacity =>
        match
          (if st.cache_status = CacheStatus.Invalidated then
            (rebuild st).map fun nd =>
              { st with data_cache := nd, cache_status := CacheStatus.Fresh }
          else some st) with
        | none => none
        | some st1 =>
          if st1.end_of_static_sections + POINTER_SIZE ≤ st1.data_cache.length then
            some (⟨some (writeBytes st1.data_cache st1.end_of_static_sections
                    (neBytes (base + st1.end_of_static_sections))),
                   base + st1.end_of_static_sections⟩, st1)
          else none

/-! ## Specification-side definitions -/

/-- The byte a section contributes at its local offset `i`: the literal
backing byte for a data-kind section, zero for a zero-fill section. -/
def secContentByte (sec : LoadedSection) (i : Nat) : Nat :=
  match sec.typ with
  | .TlsData => sec.data.getD i 0
  | .TlsBss => 0

/-- The byte a registry entry contributes at absolute registry offset `j`. -/
def entryByte (e : RangeEntry) (j : Nat) : Nat :=
  secContentByte e.sec (j - e.start)

/-- Does entry `e` cover registry offset `j`? -/
def coversB (j : Nat) (e : RangeEntry) : Bool :=
  decide (e.start ≤ j) && decide (j < e.stop)

/-- The byte a registry dictates at offset `j`: the covering section's byte,
or zero on uncovered offsets. -/
def regByte (reg : List RangeEntry) (j : Nat) : Nat :=
  match reg.find? (coversB j) with
  | some e => entryByte e j
  | none => 0

/-- Well-formedness of registry entries: every range starts at or after `lo`,
is non-empty, spans exactly its section's size, and a data-kind section has at
least `size` backing bytes. -/
def entriesWF (lo : Nat) (reg : List RangeEntry) : Prop :=
  ∀ e ∈ reg, lo ≤ e.start ∧ e.start < e.stop ∧ e.stop - e.start = e.sec.size ∧
    (e.sec.typ = SectionType.TlsData → e.sec.size ≤ e.sec.data.length)

/-- The registry list is sorted with pairwise-disjoint ranges. -/
def sortedReg (reg : List RangeEntry) : Prop :=
  List.Pairwise (fun a b => a.stop ≤ b.start) reg

/-- The supremum of the stored range ends (0 for an empty registry). -/
def supStop (reg : List RangeEntry) : Nat :=
  reg.foldr (fun e acc => max e.stop acc) 0

/-- The state invariant maintained by every `TlsInitializer` operation. -/
structure TlsInv (st : TlsInitializer) : Prop where
  swf : entriesWF 0 st.static_section_offsets
  ssort : sortedReg st.static_section_offsets
  send : supStop st.static_section_offsets = st.end_of_static_sections
  dwf : entriesWF POINTER_SIZE st.dynamic_section_offsets
  dsort : sortedReg st.dynamic_section_offsets
  dend : supStop st.dynamic_section_offsets = st.end_of_dynamic_sections
  cfresh : st.cache_status = CacheStatus.Fresh → rebuild st = some st.data_cache

/-- States reachable by sequences of successful operations from the empty
initializer.  Registration steps carry the (external) guarantee that a
data-kind section's backing bytes cover its declared size. -/
inductive Reach : TlsInitializer → Prop where
  | empty : Reach TlsInitializer.empty
  | addStatic {st sec off tot sec' st'} : Reach st →
      (sec.typ = SectionType.TlsData → sec.size ≤ sec.data.length) →
      add_existing_static_tls_section st sec off tot = .ok sec' st' → Reach st'
  | addDynamic {st sec a out st'} : Reach st →
      (sec.typ = SectionType.TlsData → sec.size ≤ sec.data.length) →
      add_new_dynamic_tls_section st sec a = .ok out st' → Reach st'
  | invalidate {st} : Reach st → Reach st.invalidate
  | getData {st base r st'} : Reach st → get_data st base = some (r, st') → Reach st'

/-- Does `[s, e)` intersect the stored range of `ent`? -/
def rangesIntersect (s e : Nat) (ent : RangeEntry) : Prop :=
  max s ent.start < min e ent.stop

/-- First-fit specification for the dynamic allocator: `off` is the aligned
start of some gap the section fits in, and no earlier gap fits. -/
def firstFitAt (gaps : List (Nat × Nat)) (a sz off : Nat) : Prop :=
  ∃ pre g post, gaps = pre ++ g :: post ∧ off = roundUpM g.1 a ∧
    roundUpM g.1 a + sz ≤ g.2 ∧ ∀ g' ∈ pre, ¬(roundUpM g'.1 a + sz ≤ g'.2)

/-- The free gaps of the dynamic registry in `[POINTER_SIZE, usize::MAX)`. -/
def dynGaps (st : TlsInitializer) : List (Nat × Nat) :=
  rmGaps (U - 1) POINTER_SIZE st.dynamic_section_offsets


/-! ### Concrete instances used by the claim theorems -/

/-- The spec's worked example: a data-kind static section of size 8
(backing bytes `0xAB`), registered at link offset 8 with total static size 16. -/
def exSecS : LoadedSection := ⟨8, .TlsData, [171, 171, 171, 171, 171, 171, 171, 171], 0⟩

/-- The worked example's dynamic section: size 4, alignment 8. -/
def exSecD : LoadedSection := ⟨4, .TlsData, [1, 2, 3, 4], 0⟩

/-- `exSecS` as stored: its virtual-address field holds the two's-complement
encoding of `-8`. -/
def exSecS' : LoadedSection := ⟨8, .TlsData, [171, 171, 171, 171, 171, 171, 171, 171], U - 8⟩

/-- `exSecD` as stored: its virtual-address field holds its offset 8. -/
def exSecD' : LoadedSection := ⟨4, .TlsData, [1, 2, 3, 4], 8⟩

/-- The worked-example state after the static registration. -/
def exStA : TlsInitializer := ⟨[], .Invalidated, [⟨8, 16, exSecS'⟩], 16, [], 0⟩

/-- The worked-example state after both registrations. -/
def exStB : TlsInitializer := ⟨[], .Invalidated, [⟨8, 16, exSecS'⟩], 16, [⟨8, 12, exSecD'⟩], 12⟩

/-- The canonical layout buffer `get_data` builds for `exStB`
(the self-pointer slot still zeroed). -/
def exCache : List Nat :=
  List.replicate 8 0 ++ exSecS'.data ++ List.replicate 8 0 ++ exSecD'.data

/-- The image buffer `get_data exStB 0` returns: zero padding, static content,
the self-pointer bytes (value 16), then the dynamic content. -/
def exImg0 : List Nat :=
  [0, 0, 0, 0, 0, 0, 0, 0, 171, 171, 171, 171, 171, 171, 171, 171,
   16, 0, 0, 0, 0, 0, 0, 0, 1, 2, 3, 4]

/-- A stored static section covering `[2, 4)`. -/
def ovSec : LoadedSection := ⟨2, .TlsData, [10, 11], 0⟩

/-- A state whose static registry holds exactly the range `[2, 4)`. -/
def ovSt : TlsInitializer := ⟨[], .Invalidated, [⟨2, 4, ovSec⟩], 4, [], 0⟩

/-- A section of size 8: its range `[0, 8)` strictly contains `[2, 4)`. -/
def ovSecB : LoadedSection := ⟨8, .TlsData, [1, 2, 3, 4, 5, 6, 7, 8], 0⟩

/-- A section of size 1 whose range `[2, 3)` overlaps the stored `[2, 4)`. -/
def ovSecC : LoadedSection := ⟨1, .TlsData, [9], 0⟩

/-- A section of size 1. -/
def oneSec : LoadedSection := ⟨1, .TlsData, [7], 0⟩

/-- A section of size 0. -/
def zeroSec : LoadedSection := ⟨0, .TlsData, [], 0⟩

/-- A section of size 4 (used with a total static size of `2^48`, whose
negated offset is a non-canonical address). -/
def vaSec : LoadedSection := ⟨4, .TlsData, [1, 2, 3, 4], 0⟩

/-- The dynamic section `oneSec` as stored at offset 8. -/
def dynSec : LoadedSection := ⟨1, .TlsData, [7], 8⟩

/-- A state with no static sections and one dynamic section at `[8, 9)`. -/
def dynSt : TlsInitializer := ⟨[], .Invalidated, [], 0, [⟨8, 9, dynSec⟩], 9⟩

/-- `dynSt` after `get_data` has rebuilt its cache. -/
def dynStF : TlsInitializer := ⟨[0, 0, 0, 0, 0, 0, 0, 0, 7], .Fresh, [], 0, [⟨8, 9, dynSec⟩], 9⟩

/-- A state whose static registry covers offset 0. -/
def covSt : TlsInitializer := ⟨[], .Invalidated, [⟨0, 1, ⟨1, .TlsData, [5], 0⟩⟩], 1, [], 0⟩

/-- A static data section of size 8 registered at offset 0, total size 8. -/
def wSec : LoadedSection := ⟨8, .TlsData, [1, 2, 3, 4, 5, 6, 7, 8], 0⟩

/-- `wSec` as stored (virtual address = two's complement of `-8`). -/
def wSec' : LoadedSection := ⟨8, .TlsData, [1, 2, 3, 4, 5, 6, 7, 8], U - 8⟩

/-- The state reached from empty by registering `wSec` at offset 0, total 8. -/
def wSt : TlsInitializer := ⟨[], .Invalidated, [⟨0, 8, wSec'⟩], 8, [], 0⟩

/-- `wSt` after `get_data` has rebuilt its cache. -/
def wStF : TlsInitializer :=
  ⟨[1, 2, 3, 4, 5, 6, 7, 8, 0, 0, 0, 0, 0, 0, 0, 0], .Fresh, [⟨0, 8, wSec'⟩], 8, [], 0⟩

/-- The image buffer `get_data wSt 0` returns (self pointer value 8). -/
def wL : List Nat := [1, 2, 3, 4, 5, 6, 7, 8, 8, 0, 0, 0, 0, 0, 0, 0]

/-- The image `get_data wSt 0` returns. -/
def wImg : TlsDataImage := ⟨some wL, 8⟩

/-! ## List lemmas -/

theorem getD_append_lt (l l2 : List Nat) (i : Nat) (h : i < l.length) :
    (l ++ l2).getD i 0 = l.getD i 0 := by
  induction l generalizing i with
  | nil => simp at h
  | cons a t ih =>
    cases i with
    | zero => simp
    | succ j =>
      simp only [List.cons_append, List.getD_cons_succ]
      exact ih j (by simpa using Nat.lt_of_succ_lt_succ h)

theorem getD_append_ge (l l2 : List Nat) (i : Nat) (h : l.length ≤ i) :
    (l ++ l2).getD i 0 = l2.getD (i - l.length) 0 := by
  induction l generalizing i with
  | nil => simp
  | cons a t ih =>
    cases i with
    | zero => simp at h
    | succ j =>
      simp only [List.cons_append, List.getD_cons_succ, List.length_cons]
      rw [ih j (by simpa using Nat.le_of_succ_le_succ h)]
      congr 1
      omega

theorem getD_replicate_zero (n i : Nat) : (List.replicate n (0 : Nat)).getD i 0 = 0 := by
  induction n generalizing i with
  | zero => simp
  | succ m ih =>
    cases i with
    | zero => simp [List.replicate_succ]
    | succ j => simp [List.replicate_succ, ih]

theorem getD_take (l : List Nat) (i n : Nat) (h : i < n) :
    (l.take n).getD i 0 = l.getD i 0 := by
  induction l generalizing i n with
  | nil => simp
  | cons a t ih =>
    cases n with
    | zero => omega
    | succ m =>
      cases i with
      | zero => simp
      | succ j =>
        simp only [List.take_succ_cons, List.getD_cons_succ]
        exact ih j m (by omega)

theorem getD_drop (l : List Nat) (k m : Nat) :
    (l.drop k).getD m 0 = l.getD (k + m) 0 := by
  induction l generalizing k with
  | nil => simp
  | cons a t ih =>
    cases k with
    | zero => simp
    | succ j =>
      show (t.drop j).getD m 0 = (a :: t).getD (j + 1 + m) 0
      have hj : j + 1 + m = (j + m) + 1 := by omega
      rw [hj, List.getD_cons_succ, ih]

theorem length_take_eq (l : List Nat) (o : Nat) (h : o ≤ l.length) :
    (l.take o).length = o := by
  simp only [List.length_take]
  omega

theorem writeBytes_length (l : List Nat) (o : Nat) (bs : List Nat)
    (h : o + bs.length ≤ l.length) : (writeBytes l o bs).length = l.length := by
  simp only [writeBytes, List.length_append, List.length_take, List.length_drop]
  omega

theorem writeBytes_getD_lt (l : List Nat) (o : Nat) (bs : List Nat) (j : Nat)
    (hj : j < o) (ho : o ≤ l.length) :
    (writeBytes l o bs).getD j 0 = l.getD j 0 := by
  unfold writeBytes
  rw [List.append_assoc]
  rw [getD_append_lt (l.take o) (bs ++ l.drop (o + bs.length)) j
    (by rw [length_take_eq l o ho]; exact hj)]
  exact getD_take l j o hj

theorem writeBytes_getD_slot (l : List Nat) (o : Nat) (bs : List Nat) (i : Nat)
    (hi : i < bs.length) (ho : o ≤ l.length) :
    (writeBytes l o bs).getD (o + i) 0 = bs.getD i 0 := by
  unfold writeBytes
  rw [List.append_assoc]
  rw [getD_append_ge (l.take o) (bs ++ l.drop (o + bs.length)) (o + i)
    (by rw [length_take_eq l o ho]; omega)]
  rw [length_take_eq l o ho]
  have hoi : o + i - o = i := by omega
  rw [hoi]
  exact getD_append_lt bs (l.drop (o + bs.length)) i hi

theorem writeBytes_getD_ge (l : List Nat) (o : Nat) (bs : List Nat) (j : Nat)
    (hj : o + bs.length ≤ j) (ho : o + bs.length ≤ l.length) :
    (writeBytes l o bs).getD j 0 = l.getD j 0 := by
  unfold writeBytes
  have ho' : o ≤ l.length := by omega
  rw [List.append_assoc]
  rw [getD_append_ge (l.take o) (bs ++ l.drop (o + bs.length)) j
    (by rw [length_take_eq l o ho']; omega)]
  rw [length_take_eq l o ho']
  rw [getD_append_ge bs (l.drop (o + bs.length)) (j - o) (by omega)]
  rw [getD_drop]
  congr 1
  omega

/-! ## Registry lemmas -/

theorem mem_sortedInsert (x y : RangeEntry) (l : List RangeEntry) :
    y ∈ sortedInsert x l ↔ y = x ∨ y ∈ l := by
  induction l with
  | nil => simp [sortedInsert]
  | cons z zs ih =>
    by_cases h : x.start ≤ z.start
    · simp only [sortedInsert, if_pos h, List.mem_cons]
      try tauto
    · simp only [sortedInsert, if_neg h, List.mem_cons, ih]
      try tauto

theorem pairwise_sortedInsert (x : RangeEntry) (l : List RangeEntry)
    (hx : x.start < x.stop) (hwf : ∀ z ∈ l, z.start < z.stop)
    (hdisj : ∀ z ∈ l, z.stop ≤ x.start ∨ x.stop ≤ z.start)
    (hp : sortedReg l) : sortedReg (sortedInsert x l) := by
  induction l with
  | nil => simp [sortedInsert, sortedReg]
  | cons y ys ih =>
    by_cases h : x.start ≤ y.start
    · show sortedReg (if x.start ≤ y.start then x :: y :: ys else y :: sortedInsert x ys)
      rw [if_pos h]
      rw [sortedReg, List.pairwise_cons]
      refine ⟨?_, hp⟩
      intro z hz
      rcases hdisj z hz with h1 | h1
      · exfalso
        rcases List.mem_cons.mp hz with rfl | hz'
        · have := hwf z (by simp)
          omega
        · have h2 := (List.pairwise_cons.mp hp).1 z hz'
          have h3 := hwf y (by simp)
          have h4 := hwf z hz
          omega
      · exact h1
    · show sortedReg (if x.start ≤ y.start then x :: y :: ys else y :: sortedInsert x ys)
      rw [if_neg h]
      obtain ⟨hy, hys⟩ := List.pairwise_cons.mp hp
      rw [sortedReg, List.pairwise_cons]
      constructor
      · intro z hz
        rcases (mem_sortedInsert x z ys).mp hz with rfl | hz'
        · rcases hdisj y (by simp) with h1 | h1
          · exact h1
          · omega
        · exact hy z hz'
      · exact ih (fun z hz => hwf z (by simp [hz])) (fun z hz => hdisj z (by simp [hz])) hys

theorem supStop_cons (e : RangeEntry) (l : List RangeEntry) :
    supStop (e :: l) = max e.stop (supStop l) := rfl

theorem stop_le_supStop (e : RangeEntry) (l : List RangeEntry) (h : e ∈ l) :
    e.stop ≤ supStop l := by
  induction l with
  | nil => simp at h
  | cons y ys ih =>
    rw [supStop_cons]
    rcases List.mem_cons.mp h with rfl | h'
    · omega
    · have := ih h'
      omega

theorem supStop_sortedInsert (x : RangeEntry) (l : List RangeEntry) :
    supStop (sortedInsert x l) = max x.stop (supStop l) := by
  induction l with
  | nil => rfl
  | cons y ys ih =>
    show supStop (if x.start ≤ y.start then x :: y :: ys else y :: sortedInsert x ys) = _
    by_cases h : x.start ≤ y.start
    · rw [if_pos h]
      rfl
    · rw [if_neg h, supStop_cons, ih, supStop_cons]
      omega

theorem clip_of_disjoint (s e : Nat) (ent : RangeEntry) (hse : s < e)
    (hwf : ent.start < ent.stop)
    (h : ent.stop ≤ s ∨ e ≤ ent.start) : clip s e ent = [ent] := by
  unfold clip
  rcases h with h | h
  · rw [if_pos (by omega), if_neg (by omega)]
    have hmin : min ent.stop s = ent.stop := by omega
    rw [hmin]
    rfl
  · rw [if_neg (by omega), if_pos (by omega)]
    have hmax : max ent.start e = ent.start := by omega
    rw [hmax]
    rfl

theorem clip_of_inside (s e : Nat) (ent : RangeEntry)
    (h1 : s < ent.start) (h2 : ent.stop ≤ e) : clip s e ent = [] := by
  unfold clip
  rw [if_neg (by omega), if_neg (by omega)]
  rfl

theorem clipAll_sublist (s e : Nat) (m : List RangeEntry) (hse : s < e)
    (hwf : ∀ ent ∈ m, ent.start < ent.stop)
    (hd : ∀ ent ∈ m, (ent.stop ≤ s ∨ e ≤ ent.start) ∨ (s < ent.start ∧ ent.stop ≤ e)) :
    (clipAll s e m).Sublist m := by
  induction m with
  | nil => simp [clipAll]
  | cons ent rest ih =>
    have hrest := ih (fun z hz => hwf z (by simp [hz])) (fun z hz => hd z (by simp [hz]))
    rcases hd ent (by simp) with h | h
    · rw [clipAll, clip_of_disjoint s e ent hse (hwf ent (by simp)) h]
      exact List.Sublist.cons₂ ent hrest
    · rw [clipAll, clip_of_inside s e ent h.1 h.2, List.nil_append]
      exact List.Sublist.cons ent hrest

theorem clipAll_disjoint (s e : Nat) (m : List RangeEntry) (hse : s < e)
    (hwf : ∀ ent ∈ m, ent.start < ent.stop)
    (hd : ∀ ent ∈ m, (ent.stop ≤ s ∨ e ≤ ent.start) ∨ (s < ent.start ∧ ent.stop ≤ e)) :
    ∀ ent ∈ clipAll s e m, ent.stop ≤ s ∨ e ≤ ent.start := by
  induction m with
  | nil => simp [clipAll]
  | cons ent0 rest ih =>
    have hrest := ih (fun z hz => hwf z (by simp [hz])) (fun z hz => hd z (by simp [hz]))
    intro ent hent
    rcases hd ent0 (by simp) with h | h
    · rw [clipAll, clip_of_disjoint s e ent0 hse (hwf ent0 (by simp)) h] at hent
      rcases List.mem_cons.mp hent with rfl | h2
      · exact h
      · exact hrest ent h2
    · rw [clipAll, clip_of_inside s e ent0 h.1 h.2, List.nil_append] at hent
      exact hrest ent hent

theorem max_supStop_clipAll (s e : Nat) (m : List RangeEntry) (hse : s < e)
    (hwf : ∀ ent ∈ m, ent.start < ent.stop)
    (hd : ∀ ent ∈ m, (ent.stop ≤ s ∨ e ≤ ent.start) ∨ (s < ent.start ∧ ent.stop ≤ e)) :
    max e (supStop (clipAll s e m)) = max e (supStop m) := by
  induction m with
  | nil => simp [clipAll]
  | cons ent0 rest ih =>
    have hrest := ih (fun z hz => hwf z (by simp [hz])) (fun z hz => hd z (by simp [hz]))
    rcases hd ent0 (by simp) with h | h
    · rw [clipAll, clip_of_disjoint s e ent0 hse (hwf ent0 (by simp)) h]
      show max e (supStop (ent0 :: clipAll s e rest)) = _
      rw [supStop_cons, supStop_cons]
      omega
    · rw [clipAll, clip_of_inside s e ent0 h.1 h.2, List.nil_append, supStop_cons]
      have h2 : ent0.stop ≤ e := h.2
      omega

theorem rmInsert_wf (s e : Nat) (v : LoadedSection) (m : List RangeEntry) (lo : Nat)
    (hse : s < e) (hlo : lo ≤ s) (hsize : e - s = v.size)
    (hdata : v.typ = SectionType.TlsData → v.size ≤ v.data.length)
    (hwf : entriesWF lo m) (hsort : sortedReg m)
    (hd : ∀ ent ∈ m, (ent.stop ≤ s ∨ e ≤ ent.start) ∨ (s < ent.start ∧ ent.stop ≤ e)) :
    entriesWF lo (rmInsert s e v m) ∧ sortedReg (rmInsert s e v m) ∧
      supStop (rmInsert s e v m) = max (supStop m) e := by
  have hwf' : ∀ ent ∈ m, ent.start < ent.stop := fun ent h => (hwf ent h).2.1
  have hsub := clipAll_sublist s e m hse hwf' hd
  refine ⟨?_, ?_, ?_⟩
  · intro ent hm
    rcases (mem_sortedInsert ⟨s, e, v⟩ ent (clipAll s e m)).mp hm with rfl | h2
    · exact ⟨hlo, hse, hsize, hdata⟩
    · exact hwf ent (hsub.subset h2)
  · exact pairwise_sortedInsert ⟨s, e, v⟩ (clipAll s e m) hse
      (fun z hz => hwf' z (hsub.subset hz))
      (clipAll_disjoint s e m hse hwf' hd)
      (hsort.sublist hsub)
  · rw [rmInsert, supStop_sortedInsert]
    have h2 := max_supStop_clipAll s e m hse hwf' hd
    have h3 : ({ start := s, stop := e, sec := v } : RangeEntry).stop = e := rfl
    rw [h3]
    omega

theorem rmGaps_cons_skip (hi lo : Nat) (e : RangeEntry) (rest : List RangeEntry)
    (h : e.stop ≤ lo) : rmGaps hi lo (e :: rest) = rmGaps hi lo rest := by
  simp [rmGaps, h]

theorem rmGaps_cons_beyond (hi lo : Nat) (e : RangeEntry) (rest : List RangeEntry)
    (h1 : ¬e.stop ≤ lo) (h2 : hi ≤ e.start) :
    rmGaps hi lo (e :: rest) = if lo < hi then [(lo, hi)] else [] := by
  simp [rmGaps, h1, h2]

theorem rmGaps_cons_overlap (hi lo : Nat) (e : RangeEntry) (rest : List RangeEntry)
    (h1 : ¬e.stop ≤ lo) (h2 : ¬hi ≤ e.start) :
    rmGaps hi lo (e :: rest) =
      (if lo < e.start then [(lo, e.start)] else []) ++ rmGaps hi e.stop rest := by
  simp [rmGaps, h1, h2]

theorem rmGaps_bounds (hi : Nat) (m : List RangeEntry) :
    ∀ lo g, g ∈ rmGaps hi lo m → lo ≤ g.1 ∧ g.1 < g.2 ∧ g.2 ≤ hi := by
  induction m with
  | nil =>
    intro lo g hg
    by_cases h : lo < hi
    · simp [rmGaps, h] at hg
      subst hg
      exact ⟨Nat.le_refl _, h, Nat.le_refl _⟩
    · simp [rmGaps, h] at hg
  | cons e rest ih =>
    intro lo g hg
    by_cases h1 : e.stop ≤ lo
    · rw [rmGaps_cons_skip hi lo e rest h1] at hg
      exact ih lo g hg
    · by_cases h2 : hi ≤ e.start
      · rw [rmGaps_cons_beyond hi lo e rest h1 h2] at hg
        by_cases h3 : lo < hi
        · rw [if_pos h3] at hg
          simp at hg
          subst hg
          exact ⟨Nat.le_refl _, h3, Nat.le_refl _⟩
        · rw [if_neg h3] at hg
          simp at hg
      · rw [rmGaps_cons_overlap hi lo e rest h1 h2] at hg
        rcases List.mem_append.mp hg with hg1 | hg2
        · by_cases h3 : lo < e.start
          · rw [if_pos h3] at hg1
            simp at hg1
            subst hg1
            exact ⟨Nat.le_refl _, h3, by omega⟩
          · rw [if_neg h3] at hg1
            simp at hg1
        · have hb := ih e.stop g hg2
          exact ⟨by omega, hb.2.1, hb.2.2⟩

theorem rmGaps_disjoint (hi : Nat) (m : List RangeEntry)
    (hwf : ∀ ent ∈ m, ent.start < ent.stop) (hsort : sortedReg m) :
    ∀ lo g, g ∈ rmGaps hi lo m → ∀ ent ∈ m, ent.stop ≤ g.1 ∨ g.2 ≤ ent.start := by
  induction m with
  | nil => intro lo g _ ent hent; simp at hent
  | cons e rest ih =>
    obtain ⟨he, hrest⟩ := List.pairwise_cons.mp hsort
    have ihr := ih (fun z hz => hwf z (by simp [hz])) hrest
    intro lo g hg ent hent
    by_cases h1 : e.stop ≤ lo
    · rw [rmGaps_cons_skip hi lo e rest h1] at hg
      have hb := rmGaps_bounds hi rest lo g hg
      rcases List.mem_cons.mp hent with rfl | h'
      · left; omega
      · exact ihr lo g hg ent h'
    · by_cases h2 : hi ≤ e.start
      · rw [rmGaps_cons_beyond hi lo e rest h1 h2] at hg
        by_cases h3 : lo < hi
        · rw [if_pos h3] at hg
          simp at hg
          subst hg
          rcases List.mem_cons.mp hent with rfl | h'
          · right; exact h2
          · right
            have := he ent h'
            have := hwf e (by simp)
            simp only []
            omega
        · rw [if_neg h3] at hg
          simp at hg
      · rw [rmGaps_cons_overlap hi lo e rest h1 h2] at hg
        rcases List.mem_append.mp hg with hg1 | hg2
        · by_cases h3 : lo < e.start
          · rw [if_pos h3] at hg1
            simp at hg1
            subst hg1
            rcases List.mem_cons.mp hent with rfl | h'
            · right; exact Nat.le_refl _
            · right
              have := he ent h'
              have := hwf e (by simp)
              simp only []
              omega
          · rw [if_neg h3] at hg1
            simp at hg1
        · have hb := rmGaps_bounds hi rest e.stop g hg2
          rcases List.mem_cons.mp hent with rfl | h'
          · left; omega
          · exact ihr e.stop g hg2 ent h'

theorem rmGaps_sorted (hi : Nat) (m : List RangeEntry)
    (hwf : ∀ ent ∈ m, ent.start < ent.stop) :
    ∀ lo, List.Pairwise (fun g g' => g.2 ≤ g'.1) (rmGaps hi lo m) := by
  induction m with
  | nil =>
    intro lo
    by_cases h : lo < hi
    · simp [rmGaps, h]
    · simp [rmGaps, h]
  | cons e rest ih =>
    have ihr := ih (fun z hz => hwf z (by simp [hz]))
    intro lo
    by_cases h1 : e.stop ≤ lo
    · rw [rmGaps_cons_skip hi lo e rest h1]
      exact ihr lo
    · by_cases h2 : hi ≤ e.start
      · rw [rmGaps_cons_beyond hi lo e rest h1 h2]
        by_cases h3 : lo < hi
        · rw [if_pos h3]; simp
        · rw [if_neg h3]; simp
      · rw [rmGaps_cons_overlap hi lo e rest h1 h2]
        by_cases h3 : lo < e.start
        · rw [if_pos h3]
          rw [List.singleton_append, List.pairwise_cons]
          refine ⟨?_, ihr e.stop⟩
          intro g' hg'
          have hb := rmGaps_bounds hi rest e.stop g' hg'
          have := hwf e (by simp)
          simp only []
          omega
        · rw [if_neg h3, List.nil_append]
          exact ihr e.stop

theorem lt_div_succ_mul (m k : Nat) (hk : 0 < k) : m < (m / k + 1) * k := by
  have h1 := Nat.div_add_mod m k
  have h2 := Nat.mod_lt m hk
  have h3 : (m / k + 1) * k = k * (m / k) + k := by ring
  omega

theorem le_roundUpM (x a : Nat) (h : a ≠ 0) : x ≤ roundUpM x a := by
  rw [roundUpM]
  rcases Nat.eq_zero_or_pos x with rfl | hx
  · exact Nat.zero_le _
  · have h1 : x + a - 1 = (x - 1) + a := by omega
    rw [h1, Nat.add_div_right _ (Nat.pos_of_ne_zero h)]
    have h2 := lt_div_succ_mul (x - 1) a (Nat.pos_of_ne_zero h)
    omega

theorem findFit_ok (a sz : Nat) (gaps : List (Nat × Nat)) (off : Nat)
    (h : findFit a sz gaps = some (some off)) :
    firstFitAt gaps a sz off ∧ a ≠ 0 := by
  induction gaps with
  | nil => simp [findFit] at h
  | cons g rest ih =>
    rw [findFit] at h
    by_cases h0 : a = 0
    · rw [if_pos h0] at h
      simp at h
    · rw [if_neg h0] at h
      by_cases h1 : roundUpM g.1 a < U
      · rw [if_pos h1] at h
        by_cases h2 : roundUpM g.1 a + sz < U
        · rw [if_pos h2] at h
          by_cases h3 : roundUpM g.1 a + sz ≤ g.2
          · rw [if_pos h3] at h
            have hoff : roundUpM g.1 a = off := by simpa using h
            refine ⟨⟨[], g, rest, by simp, hoff.symm, h3, by simp⟩, h0⟩
          · rw [if_neg h3] at h
            obtain ⟨⟨pre, g', post, hsplit, hoff, hfit, hpre⟩, _⟩ := ih h
            refine ⟨⟨g :: pre, g', post, by rw [List.cons_append, hsplit], hoff, hfit, ?_⟩, h0⟩
            intro g'' hg''
            rcases List.mem_cons.mp hg'' with rfl | hg2
            · exact h3
            · exact hpre g'' hg2
        · rw [if_neg h2] at h
          simp at h
      · rw [if_neg h1] at h
        simp at h

theorem findFit_err (a sz : Nat) (gaps : List (Nat × Nat))
    (h : findFit a sz gaps = some none) :
    ∀ g ∈ gaps, ¬(roundUpM g.1 a + sz ≤ g.2) := by
  induction gaps with
  | nil => intro g hg; simp at hg
  | cons g0 rest ih =>
    rw [findFit] at h
    by_cases h0 : a = 0
    · rw [if_pos h0] at h; simp at h
    · rw [if_neg h0] at h
      by_cases h1 : roundUpM g0.1 a < U
      · rw [if_pos h1] at h
        by_cases h2 : roundUpM g0.1 a + sz < U
        · rw [if_pos h2] at h
          by_cases h3 : roundUpM g0.1 a + sz ≤ g0.2
          · rw [if_pos h3] at h; simp at h
          · rw [if_neg h3] at h
            intro g hg
            rcases List.mem_cons.mp hg with rfl | hg2
            · exact h3
            · exact ih h g hg2
        · rw [if_neg h2] at h; simp at h
      · rw [if_neg h1] at h; simp at h

theorem findFit_complete (a sz : Nat) (gaps : List (Nat × Nat)) (h0 : a ≠ 0)
    (hov : ∀ g ∈ gaps, roundUpM g.1 a < U ∧ roundUpM g.1 a + sz < U)
    (hnf : ∀ g ∈ gaps, ¬(roundUpM g.1 a + sz ≤ g.2)) :
    findFit a sz gaps = some none := by
  induction gaps with
  | nil => rfl
  | cons g rest ih =>
    rw [findFit, if_neg h0, if_pos (hov g (by simp)).1, if_pos (hov g (by simp)).2,
      if_neg (hnf g (by simp))]
    exact ih (fun z hz => hov z (by simp [hz])) (fun z hz => hnf z (by simp [hz]))

theorem containsKey_iff (m : List RangeEntry) (k : Nat) :
    containsKey m k = true ↔ ∃ e ∈ m, e.start ≤ k ∧ k < e.stop := by
  simp [containsKey, List.any_eq_true]

theorem find?_coversB_of_mem (reg : List RangeEntry) (e : RangeEntry) (j : Nat)
    (hsort : sortedReg reg) (hwf : ∀ z ∈ reg, z.start < z.stop)
    (he : e ∈ reg) (h1 : e.start ≤ j) (h2 : j < e.stop) :
    reg.find? (coversB j) = some e := by
  induction reg with
  | nil => simp at he
  | cons y ys ih =>
    obtain ⟨hy, hys⟩ := List.pairwise_cons.mp hsort
    rcases List.mem_cons.mp he with rfl | he'
    · exact List.find?_cons_of_pos ys (by simp [coversB, h1, h2])
    · have hyj : y.stop ≤ e.start := hy e he'
      have hfalse : coversB j y = false := by
        simp [coversB]
        omega
      rw [List.find?_cons_of_neg ys (by simp [hfalse])]
      exact ih hys (fun z hz => hwf z (by simp [hz])) he'

theorem regByte_of_mem (reg : List RangeEntry) (e : RangeEntry) (j : Nat)
    (hsort : sortedReg reg) (hwf : ∀ z ∈ reg, z.start < z.stop)
    (he : e ∈ reg) (h1 : e.start ≤ j) (h2 : j < e.stop) :
    regByte reg j = entryByte e j := by
  rw [regByte, find?_coversB_of_mem reg e j hsort hwf he h1 h2]

theorem regByte_of_uncovered (reg : List RangeEntry) (j : Nat)
    (h : ∀ e ∈ reg, ¬(e.start ≤ j ∧ j < e.stop)) : regByte reg j = 0 := by
  rw [regByte]
  have hn : reg.find? (coversB j) = none := by
    rw [List.find?_eq_none]
    intro x hx
    have := h x hx
    simp [coversB]
    omega
  rw [hn]

theorem static_overlap_dichotomy (m : List RangeEntry) (s e : Nat) (_hse : s < e)
    (h1 : containsKey m s = false) (h2 : containsKey m (e - 1) = false) :
    ∀ ent ∈ m, (ent.stop ≤ s ∨ e ≤ ent.start) ∨ (s < ent.start ∧ ent.stop ≤ e) := by
  intro ent hm
  have hs : ¬(ent.start ≤ s ∧ s < ent.stop) := by
    intro hc
    have : containsKey m s = true := (containsKey_iff m s).mpr ⟨ent, hm, hc⟩
    rw [h1] at this
    exact Bool.false_ne_true this
  have he : ¬(ent.start ≤ e - 1 ∧ e - 1 < ent.stop) := by
    intro hc
    have : containsKey m (e - 1) = true := (containsKey_iff m (e - 1)).mpr ⟨ent, hm, hc⟩
    rw [h2] at this
    exact Bool.false_ne_true this
  omega

theorem copy_spec (reg : List RangeEntry) : ∀ lo : Nat, entriesWF lo reg → sortedReg reg →
    ∀ (acc : List Nat) (p : Nat), p ≤ lo →
      ∃ res q, copy_tls_section_data reg acc p = some (res, q) ∧
        p ≤ q ∧
        (reg = [] → q = p) ∧
        (reg ≠ [] → q = supStop reg) ∧
        res.length = acc.length + (q - p) ∧
        (∀ i, i < acc.length → res.getD i 0 = acc.getD i 0) ∧
        (∀ j, p ≤ j → j < q → res.getD (acc.length + (j - p)) 0 = regByte reg j) := by
  induction reg with
  | nil =>
    intro lo _ _ acc p _
    refine ⟨acc, p, rfl, Nat.le_refl _, fun _ => rfl, fun h => absurd rfl h, by omega,
      fun i _ => rfl, ?_⟩
    intro j h1 h2
    omega
  | cons e rest ih =>
    intro lo hwf hsort acc p hp
    obtain ⟨hlo, hss, hsize, hdata⟩ := hwf e (by simp)
    obtain ⟨hhead, hrest⟩ := List.pairwise_cons.mp hsort
    have hbs : ∃ bs, secBytes e.sec = some bs ∧ bs.length = e.sec.size := by
      cases htyp : e.sec.typ with
      | TlsData =>
        have hd := hdata htyp
        refine ⟨e.sec.data.take e.sec.size, by simp [secBytes, htyp, hd], ?_⟩
        simp [List.length_take]
        omega
      | TlsBss => exact ⟨List.replicate e.sec.size 0, by simp [secBytes, htyp], by simp⟩
    obtain ⟨bs, hbseq, hbslen⟩ := hbs
    have hple : p ≤ e.start := Nat.le_trans hp hlo
    have hacc1len : (acc ++ List.replicate (e.start - p) 0 ++ bs).length =
        acc.length + (e.stop - p) := by
      simp only [List.length_append, List.length_replicate, hbslen]
      omega
    have hwfr : entriesWF e.stop rest := by
      intro z hz
      obtain ⟨_, hz2, hz3, hz4⟩ := hwf z (by simp [hz])
      exact ⟨hhead z hz, hz2, hz3, hz4⟩
    obtain ⟨res, q, heq, hpq, hqnil, hqcons, hreslen, hpre, hbyte⟩ :=
      ih e.stop hwfr hrest (acc ++ List.replicate (e.start - p) 0 ++ bs) e.stop (Nat.le_refl _)
    have hstep : copy_tls_section_data (e :: rest) acc p =
        copy_tls_section_data rest (acc ++ List.replicate (e.start - p) 0 ++ bs) e.stop := by
      simp only [copy_tls_section_data, hbseq]
    refine ⟨res, q, by rw [hstep]; exact heq, by omega, by simp, ?_, ?_, ?_, ?_⟩
    · intro _
      cases rest with
      | nil =>
        have hq := hqnil rfl
        rw [supStop_cons]
        have : supStop ([] : List RangeEntry) = 0 := rfl
        omega
      | cons r rs =>
        have hq := hqcons (by simp)
        rw [supStop_cons, hq]
        have h1 : e.stop ≤ r.start := hhead r (by simp)
        have h2 : r.start < r.stop := (hwf r (by simp)).2.1
        have h3 : r.stop ≤ supStop (r :: rs) := stop_le_supStop r (r :: rs) (by simp)
        omega
    · rw [hreslen, hacc1len]
      omega
    · intro i hi
      rw [hpre i (by rw [hacc1len]; omega)]
      rw [List.append_assoc]
      exact getD_append_lt acc _ i hi
    · intro j hpj hjq
      by_cases hj1 : j < e.start
      · rw [hpre _ (by rw [hacc1len]; omega)]
        rw [List.append_assoc, getD_append_ge acc _ _ (by omega)]
        have h3 : acc.length + (j - p) - acc.length = j - p := by omega
        rw [h3]
        rw [getD_append_lt (List.replicate (e.start - p) 0) bs (j - p) (by simp; omega)]
        rw [getD_replicate_zero]
        rw [regByte_of_uncovered]
        intro z hz
        rcases List.mem_cons.mp hz with rfl | hz'
        · omega
        · have h4 : e.stop ≤ z.start := hhead z hz'
          omega
      · by_cases hj2 : j < e.stop
        · rw [hpre _ (by rw [hacc1len]; omega)]
          rw [List.append_assoc, getD_append_ge acc _ _ (by omega)]
          have h4 : acc.length + (j - p) - acc.length = j - p := by omega
          rw [h4]
          rw [getD_append_ge (List.replicate (e.start - p) 0) bs (j - p) (by simp; omega)]
          have h5 : j - p - (List.replicate (e.start - p) (0 : Nat)).length = j - e.start := by
            simp only [List.length_replicate]
            omega
          rw [h5]
          have hcov : regByte (e :: rest) j = entryByte e j :=
            regByte_of_mem (e :: rest) e j hsort (fun z hz => (hwf z hz).2.1) (by simp)
              (by omega) hj2
          rw [hcov, entryByte, secContentByte]
          cases htyp : e.sec.typ with
          | TlsData =>
            have hd := hdata htyp
            have hbs2 : bs = e.sec.data.take e.sec.size := by
              simp [secBytes, htyp, hd] at hbseq
              exact hbseq.symm
            rw [hbs2]
            exact getD_take e.sec.data (j - e.start) e.sec.size (by omega)
          | TlsBss =>
            have hbs2 : bs = List.replicate e.sec.size 0 := by
              simp [secBytes, htyp] at hbseq
              exact hbseq.symm
            rw [hbs2, getD_replicate_zero]
        · have h6 := hbyte j (by omega) hjq
          have h7 : acc.length + (j - p) =
              (acc ++ List.replicate (e.start - p) 0 ++ bs).length + (j - e.stop) := by
            rw [hacc1len]
            omega
          rw [h7, h6]
          have h8 : regByte (e :: rest) j = regByte rest j := by
            rw [regByte, regByte, List.find?_cons_of_neg rest (by simp [coversB]; omega)]
          rw [h8]

theorem dyn_empty_iff (st : TlsInitializer) (hinv : TlsInv st) :
    st.dynamic_section_offsets = [] ↔ st.end_of_dynamic_sections = 0 := by
  constructor
  · intro h
    have hd := hinv.dend
    rw [h] at hd
    simpa [supStop] using hd.symm
  · intro h
    cases hdyn : st.dynamic_section_offsets with
    | nil => rfl
    | cons e l =>
      exfalso
      have h1 : e.stop ≤ supStop st.dynamic_section_offsets := by
        rw [hdyn]
        exact stop_le_supStop e (e :: l) (by simp)
      have h2 := (hinv.dwf e (by rw [hdyn]; simp)).2.1
      rw [hinv.dend, h] at h1
      omega

theorem rebuild_spec (st : TlsInitializer) (hinv : TlsInv st) :
    ∃ cache, rebuild st = some cache ∧
      cache.length = st.end_of_static_sections + POINTER_SIZE +
        ((if st.end_of_dynamic_sections = 0 then POINTER_SIZE
          else st.end_of_dynamic_sections) - POINTER_SIZE) ∧
      (∀ j, j < st.end_of_static_sections →
        cache.getD j 0 = regByte st.static_section_offsets j) ∧
      (∀ i, i < POINTER_SIZE → cache.getD (st.end_of_static_sections + i) 0 = 0) ∧
      (∀ j, POINTER_SIZE ≤ j →
        j < (if st.end_of_dynamic_sections = 0 then POINTER_SIZE
             else st.end_of_dynamic_sections) →
        cache.getD (st.end_of_static_sections + j) 0 = regByte st.dynamic_section_offsets j) := by
  have hps : POINTER_SIZE = 8 := rfl
  obtain ⟨d1, q1, heq1, hpq1, hq1nil, hq1cons, hlen1, _, hbyte1⟩ :=
    copy_spec st.static_section_offsets 0 hinv.swf hinv.ssort [] 0 (Nat.le_refl 0)
  have hq1 : q1 = st.end_of_static_sections := by
    by_cases hs : st.static_section_offsets = []
    · have h1 := hq1nil hs
      have h2 := hinv.send
      rw [hs] at h2
      simp [supStop] at h2
      omega
    · rw [hq1cons hs, hinv.send]
  have hd1len : d1.length = st.end_of_static_sections := by
    simp at hlen1
    omega
  obtain ⟨d3, q2, heq2, hpq2, hq2nil, hq2cons, hlen3, hpre3, hbyte3⟩ :=
    copy_spec st.dynamic_section_offsets POINTER_SIZE hinv.dwf hinv.dsort
      (d1 ++ List.replicate POINTER_SIZE 0) POINTER_SIZE (Nat.le_refl _)
  have hd2len : (d1 ++ List.replicate POINTER_SIZE 0).length =
      st.end_of_static_sections + POINTER_SIZE := by
    simp [hd1len]
  have hq2 : q2 = (if st.end_of_dynamic_sections = 0 then POINTER_SIZE
      else st.end_of_dynamic_sections) := by
    by_cases hd0 : st.end_of_dynamic_sections = 0
    · rw [if_pos hd0]
      exact hq2nil ((dyn_empty_iff st hinv).mpr hd0)
    · rw [if_neg hd0]
      have hne : st.dynamic_section_offsets ≠ [] := by
        intro hc
        exact hd0 ((dyn_empty_iff st hinv).mp hc)
      rw [hq2cons hne, hinv.dend]
  have hrb : rebuild st = some d3 := by
    unfold rebuild
    simp only [heq1, hq1]
    rw [if_pos trivial]
    simp only [heq2, hq2]
    by_cases hd0 : st.end_of_dynamic_sections = 0
    · rw [if_pos hd0]
    · rw [if_neg hd0, if_neg hd0, if_pos rfl]
  refine ⟨d3, hrb, ?_, ?_, ?_, ?_⟩
  · rw [hlen3, hd2len, hq2]
  · intro j hj
    rw [hpre3 j (by rw [hd2len]; omega)]
    rw [getD_append_lt d1 _ j (by omega)]
    have hb := hbyte1 j (Nat.zero_le j) (by omega)
    simpa using hb
  · intro i hi
    rw [hpre3 _ (by rw [hd2len]; omega)]
    rw [getD_append_ge d1 _ _ (by omega)]
    rw [hd1len]
    have h1 : st.end_of_static_sections + i - st.end_of_static_sections = i := by omega
    rw [h1, getD_replicate_zero]
  · intro j h8 hj
    have hb := hbyte3 j h8 (by omega)
    have hidx : (d1 ++ List.replicate POINTER_SIZE 0).length + (j - POINTER_SIZE) =
        st.end_of_static_sections + j := by
      rw [hd2len]
      omega
    rw [hidx] at hb
    exact hb

theorem checkedAdd_some (a b c : Nat) (h : checkedAdd a b = some c) :
    c = a + b ∧ a + b < U := by
  unfold checkedAdd at h
  by_cases hU : a + b < U
  · rw [if_pos hU] at h
    exact ⟨(Option.some.inj h).symm, hU⟩
  · rw [if_neg hU] at h
    exact absurd h (by simp)

theorem checkedSub_some (a b c : Nat) (h : checkedSub a b = some c) :
    c = a - b ∧ b ≤ a := by
  unfold checkedSub at h
  by_cases hU : b ≤ a
  · rw [if_pos hU] at h
    exact ⟨(Option.some.inj h).symm, hU⟩
  · rw [if_neg hU] at h
    exact absurd h (by simp)

theorem get_data_cases (st : TlsInitializer) (base : Nat) (r : TlsDataImage)
    (st' : TlsInitializer) (h : get_data st base = some (r, st')) :
    (st.end_of_static_sections + st.end_of_dynamic_sections = 0 ∧
      r = ⟨none, 0⟩ ∧ st' = st) ∨
    (0 < st.end_of_static_sections + st.end_of_dynamic_sections ∧
      st.end_of_static_sections + st.end_of_dynamic_sections + POINTER_SIZE < U ∧
      ∃ cache,
        ((st.cache_status = CacheStatus.Invalidated ∧ rebuild st = some cache ∧
            st' = { st with data_cache := cache, cache_status := CacheStatus.Fresh }) ∨
          (st.cache_status = CacheStatus.Fresh ∧ st' = st ∧ cache = st.data_cache)) ∧
        st.end_of_static_sections + POINTER_SIZE ≤ cache.length ∧
        r = ⟨some (writeBytes cache st.end_of_static_sections
              (neBytes (base + st.end_of_static_sections))),
            base + st.end_of_static_sections⟩) := by
  unfold get_data at h
  split at h
  · exact absurd h (by simp)
  rename_i total htotal
  obtain ⟨rfl, hU1⟩ := checkedAdd_some _ _ _ htotal
  by_cases h0 : st.end_of_static_sections + st.end_of_dynamic_sections = 0
  · rw [if_pos h0] at h
    have h' := Option.some.inj h
    rw [Prod.ext_iff] at h'
    exact Or.inl ⟨h0, h'.1.symm, h'.2.symm⟩
  · rw [if_neg h0] at h
    split at h
    · exact absurd h (by simp)
    rename_i req hreq
    obtain ⟨-, hU2⟩ := checkedAdd_some _ _ _ hreq
    by_cases hc : st.cache_status = CacheStatus.Invalidated
    · rw [if_pos hc] at h
      cases hrb : rebuild st with
      | none =>
        rw [hrb] at h
        exact absurd h (by simp)
      | some cache =>
        rw [hrb] at h
        have h2 : (if st.end_of_static_sections + POINTER_SIZE ≤ cache.length then
            some ((⟨some (writeBytes cache st.end_of_static_sections
                (neBytes (base + st.end_of_static_sections))),
              base + st.end_of_static_sections⟩ : TlsDataImage),
              { st with data_cache := cache, cache_status := CacheStatus.Fresh })
            else none) = some (r, st') := h
        by_cases hlen : st.end_of_static_sections + POINTER_SIZE ≤ cache.length
        · rw [if_pos hlen] at h2
          have h3 := Option.some.inj h2
          rw [Prod.ext_iff] at h3
          exact Or.inr ⟨by omega, hU2, cache, Or.inl ⟨hc, rfl, h3.2.symm⟩, hlen, h3.1.symm⟩
        · rw [if_neg hlen] at h2
          exact absurd h2 (by simp)
    · have hf : st.cache_status = CacheStatus.Fresh := by
        cases hcs : st.cache_status
        · rfl
        · exact absurd hcs hc
      rw [if_neg hc] at h
      have h2 : (if st.end_of_static_sections + POINTER_SIZE ≤ st.data_cache.length then
          some ((⟨some (writeBytes st.data_cache st.end_of_static_sections
              (neBytes (base + st.end_of_static_sections))),
            base + st.end_of_static_sections⟩ : TlsDataImage), st)
          else none) = some (r, st') := h
      by_cases hlen : st.end_of_static_sections + POINTER_SIZE ≤ st.data_cache.length
      · rw [if_pos hlen] at h2
        have h3 := Option.some.inj h2
        rw [Prod.ext_iff] at h3
        exact Or.inr ⟨by omega, hU2, st.data_cache, Or.inr ⟨hf, h3.2.symm, rfl⟩, hlen,
          h3.1.symm⟩
      · rw [if_neg hlen] at h2
        exact absurd h2 (by simp)

theorem get_data_zero (st : TlsInitializer) (b : Nat)
    (h : st.end_of_static_sections + st.end_of_dynamic_sections = 0) :
    get_data st b = some (⟨none, 0⟩, st) := by
  unfold get_data
  have hU : st.end_of_static_sections + st.end_of_dynamic_sections < U := by
    rw [h]
    decide
  simp only [checkedAdd, if_pos hU]
  rw [if_pos h]

theorem get_data_fresh (st : TlsInitializer) (b : Nat)
    (hf : st.cache_status = CacheStatus.Fresh)
    (h0 : 0 < st.end_of_static_sections + st.end_of_dynamic_sections)
    (hU : st.end_of_static_sections + st.end_of_dynamic_sections + POINTER_SIZE < U)
    (hlen : st.end_of_static_sections + POINTER_SIZE ≤ st.data_cache.length) :
    get_data st b = some (⟨some (writeBytes st.data_cache st.end_of_static_sections
        (neBytes (b + st.end_of_static_sections))), b + st.end_of_static_sections⟩, st) := by
  unfold get_data
  have hU1 : st.end_of_static_sections + st.end_of_dynamic_sections < U := by omega
  simp only [checkedAdd, if_pos hU1]
  rw [if_neg (by omega), if_pos hU, if_neg (by simp [hf])]
  exact if_pos hlen

theorem get_data_invalidated (st : TlsInitializer) (b : Nat) (cache : List Nat)
    (hc : st.cache_status = CacheStatus.Invalidated) (hrb : rebuild st = some cache)
    (h0 : 0 < st.end_of_static_sections + st.end_of_dynamic_sections)
    (hU : st.end_of_static_sections + st.end_of_dynamic_sections + POINTER_SIZE < U)
    (hlen : st.end_of_static_sections + POINTER_SIZE ≤ cache.length) :
    get_data st b = some (⟨some (writeBytes cache st.end_of_static_sections
        (neBytes (b + st.end_of_static_sections))), b + st.end_of_static_sections⟩,
      { st with data_cache := cache, cache_status := CacheStatus.Fresh }) := by
  unfold get_data
  have hU1 : st.end_of_static_sections + st.end_of_dynamic_sections < U := by omega
  simp only [checkedAdd, if_pos hU1]
  rw [if_neg (by omega), if_pos hU, if_pos hc, hrb]
  simp only [Option.map_some']
  exact if_pos hlen

theorem vaNew_some (x v : Nat) (h : VirtualAddress.new x = some v) :
    v = x ∧ isCanonical x = true := by
  unfold VirtualAddress.new at h
  cases hc : isCanonical x with
  | false =>
    rw [if_neg (by simp [hc])] at h
    exact absurd h (by simp)
  | true =>
    rw [if_pos hc] at h
    exact ⟨(Option.some.inj h).symm, rfl⟩

theorem addStatic_ok_inv (st : TlsInitializer) (sec : LoadedSection) (off tot : Nat)
    (sec' : LoadedSection) (st' : TlsInitializer)
    (h : add_existing_static_tls_section st sec off tot = .ok sec' st') :
    off + sec.size < U ∧
    containsKey st.static_section_offsets off = false ∧
    1 ≤ off + sec.size ∧
    containsKey st.static_section_offsets (off + sec.size - 1) = false ∧
    off ≤ tot ∧
    isCanonical (wrappingNeg (tot - off)) = true ∧
    0 < sec.size ∧
    sec' = { sec with virt_addr := wrappingNeg (tot - off) } ∧
    st' = { st with
      static_section_offsets :=
        rmInsert off (off + sec.size) { sec with virt_addr := wrappingNeg (tot - off) }
          st.static_section_offsets,
      end_of_static_sections := max st.end_of_static_sections (off + sec.size),
      cache_status := CacheStatus.Invalidated } := by
  unfold add_existing_static_tls_section at h
  split at h
  · exact absurd h (by simp)
  rename_i rend hrend
  obtain ⟨rfl, hU⟩ := checkedAdd_some _ _ _ hrend
  by_cases hc1 : containsKey st.static_section_offsets off
  · rw [if_pos hc1] at h
    exact absurd h (by simp)
  · rw [if_neg hc1] at h
    split at h
    · exact absurd h (by simp)
    rename_i rendPred hsub1
    obtain ⟨rfl, h1le⟩ := checkedSub_some _ _ _ hsub1
    by_cases hc2 : containsKey st.static_section_offsets (off + sec.size - 1)
    · rw [if_pos hc2] at h
      exact absurd h (by simp)
    · rw [if_neg hc2] at h
      split at h
      · exact absurd h (by simp)
      rename_i diff hsub2
      obtain ⟨rfl, hot⟩ := checkedSub_some _ _ _ hsub2
      split at h
      · exact absurd h (by simp)
      rename_i sOff hva
      obtain ⟨rfl, hcan⟩ := vaNew_some _ _ hva
      by_cases hlt : off < off + sec.size
      · rw [if_pos hlt] at h
        have h1 := RRes.ok.inj h
        refine ⟨hU, by simpa using hc1, h1le, by simpa using hc2, hot, hcan, by omega,
          h1.1.symm, ?_⟩
        rw [← h1.2]
      · rw [if_neg hlt] at h
        exact absurd h (by simp)

theorem addDynamic_ok_inv (st : TlsInitializer) (sectn : LoadedSection) (a : Nat)
    (out : Nat × LoadedSection) (st' : TlsInitializer)
    (h : add_new_dynamic_tls_section st sectn a = .ok out st') :
    ∃ startIdx,
      findFit a sectn.size (dynGaps st) = some (some startIdx) ∧
      startIdx + sectn.size < U ∧
      isCanonical startIdx = true ∧
      0 < sectn.size ∧
      out = (startIdx, { sectn with virt_addr := startIdx }) ∧
      st' = { st with
        dynamic_section_offsets :=
          rmInsert startIdx (startIdx + sectn.size) { sectn with virt_addr := startIdx }
            st.dynamic_section_offsets,
        end_of_dynamic_sections := max st.end_of_dynamic_sections (startIdx + sectn.size),
        cache_status := CacheStatus.Invalidated } := by
  unfold add_new_dynamic_tls_section at h
  split at h
  · exact absurd h (by simp)
  · exact absurd h (by simp)
  · rename_i startIdx hfind
    split at h
    · exact absurd h (by simp)
    rename_i rend hrend
    obtain ⟨rfl, hU⟩ := checkedAdd_some _ _ _ hrend
    split at h
    · exact absurd h (by simp)
    rename_i va hva
    obtain ⟨rfl, hcan⟩ := vaNew_some _ _ hva
    by_cases hlt : va < va + sectn.size
    · rw [if_pos hlt] at h
      have h1 := RRes.ok.inj h
      refine ⟨va, hfind, hU, hcan, by omega, h1.1.symm, ?_⟩
      rw [← h1.2]
    · rw [if_neg hlt] at h
      exact absurd h (by simp)

theorem addStatic_err_eq (st : TlsInitializer) (sec : LoadedSection) (off tot : Nat)
    (st'' : TlsInitializer)
    (h : add_existing_static_tls_section st sec off tot = .err st'') : st'' = st := by
  unfold add_existing_static_tls_section at h
  split at h
  · exact absurd h (by simp)
  rename_i rend hrend
  by_cases hc1 : containsKey st.static_section_offsets off
  · rw [if_pos hc1] at h
    exact (RRes.err.inj h).symm
  · rw [if_neg hc1] at h
    split at h
    · exact absurd h (by simp)
    rename_i rendPred hsub1
    by_cases hc2 : containsKey st.static_section_offsets rendPred
    · rw [if_pos hc2] at h
      exact (RRes.err.inj h).symm
    · rw [if_neg hc2] at h
      split at h
      · exact absurd h (by simp)
      rename_i diff hsub2
      split at h
      · exact (RRes.err.inj h).symm
      rename_i sOff hva
      by_cases hlt : off < rend
      · rw [if_pos hlt] at h
        exact absurd h (by simp)
      · rw [if_neg hlt] at h
        exact absurd h (by simp)

theorem addDynamic_err_eq (st : TlsInitializer) (sectn : LoadedSection) (a : Nat)
    (st'' : TlsInitializer)
    (h : add_new_dynamic_tls_section st sectn a = .err st'') : st'' = st := by
  unfold add_new_dynamic_tls_section at h
  split at h
  · exact absurd h (by simp)
  · exact (RRes.err.inj h).symm
  · rename_i startIdx hfind
    split at h
    · exact absurd h (by simp)
    rename_i rend hrend
    split at h
    · exact (RRes.err.inj h).symm
    rename_i va hva
    by_cases hlt : startIdx < rend
    · rw [if_pos hlt] at h
      exact absurd h (by simp)
    · rw [if_neg hlt] at h
      exact absurd h (by simp)

theorem inv_empty : TlsInv TlsInitializer.empty := by
  refine ⟨?_, List.Pairwise.nil, rfl, ?_, List.Pairwise.nil, rfl, ?_⟩
  · intro e he
    exact absurd he (by simp [TlsInitializer.empty])
  · intro e he
    exact absurd he (by simp [TlsInitializer.empty])
  · intro hc
    exact CacheStatus.noConfusion hc

theorem inv_addStatic (st : TlsInitializer) (sec : LoadedSection) (off tot : Nat)
    (sec' : LoadedSection) (st' : TlsInitializer) (hinv : TlsInv st)
    (hdata : sec.typ = SectionType.TlsData → sec.size ≤ sec.data.length)
    (h : add_existing_static_tls_section st sec off tot = .ok sec' st') : TlsInv st' := by
  obtain ⟨hU, hc1, h1le, hc2, hot, hcan, hsz, hsec', hst'⟩ := addStatic_ok_inv _ _ _ _ _ _ h
  subst hst'
  have hse : off < off + sec.size := by omega
  have hd := static_overlap_dichotomy st.static_section_offsets off (off + sec.size) hse hc1 hc2
  have hiw := rmInsert_wf off (off + sec.size) { sec with virt_addr := wrappingNeg (tot - off) }
    st.static_section_offsets 0 hse (Nat.zero_le _)
    (by show off + sec.size - off = sec.size; omega) hdata hinv.swf hinv.ssort hd
  refine ⟨hiw.1, hiw.2.1, ?_, hinv.dwf, hinv.dsort, hinv.dend, ?_⟩
  · show supStop (rmInsert off (off + sec.size) _ st.static_section_offsets) = _
    rw [hiw.2.2, hinv.send]
  · intro hc
    exact CacheStatus.noConfusion hc

theorem inv_addDynamic (st : TlsInitializer) (sectn : LoadedSection) (a : Nat)
    (out : Nat × LoadedSection) (st' : TlsInitializer) (hinv : TlsInv st)
    (hdata : sectn.typ = SectionType.TlsData → sectn.size ≤ sectn.data.length)
    (h : add_new_dynamic_tls_section st sectn a = .ok out st') : TlsInv st' := by
  obtain ⟨startIdx, hfind, hU, hcan, hsz, hout, hst'⟩ := addDynamic_ok_inv _ _ _ _ _ h
  subst hst'
  obtain ⟨⟨pre, g, post, hsplit, hoff, hfit, hpre⟩, ha0⟩ := findFit_ok _ _ _ _ hfind
  have hg : g ∈ rmGaps (U - 1) POINTER_SIZE st.dynamic_section_offsets := by
    show g ∈ dynGaps st
    rw [hsplit]
    simp
  have hb := rmGaps_bounds (U - 1) st.dynamic_section_offsets POINTER_SIZE g hg
  have hdisj := rmGaps_disjoint (U - 1) st.dynamic_section_offsets
    (fun z hz => (hinv.dwf z hz).2.1) hinv.dsort POINTER_SIZE g hg
  have hal : g.1 ≤ startIdx := by
    rw [hoff]
    exact le_roundUpM g.1 a ha0
  have hstart8 : POINTER_SIZE ≤ startIdx := Nat.le_trans hb.1 hal
  have hfit' : startIdx + sectn.size ≤ g.2 := by
    rw [hoff]
    exact hfit
  have hd : ∀ ent ∈ st.dynamic_section_offsets,
      (ent.stop ≤ startIdx ∨ startIdx + sectn.size ≤ ent.start) ∨
        (startIdx < ent.start ∧ ent.stop ≤ startIdx + sectn.size) := by
    intro ent hent
    left
    rcases hdisj ent hent with h1 | h1
    · left
      omega
    · right
      omega
  have hiw := rmInsert_wf startIdx (startIdx + sectn.size) { sectn with virt_addr := startIdx }
    st.dynamic_section_offsets POINTER_SIZE (by omega) hstart8
    (by show startIdx + sectn.size - startIdx = sectn.size; omega) hdata
    hinv.dwf hinv.dsort hd
  refine ⟨hinv.swf, hinv.ssort, hinv.send, hiw.1, hiw.2.1, ?_, ?_⟩
  · show supStop (rmInsert startIdx (startIdx + sectn.size) _ st.dynamic_section_offsets) = _
    rw [hiw.2.2, hinv.dend]
  · intro hc
    exact CacheStatus.noConfusion hc

theorem inv_invalidate (st : TlsInitializer) (hinv : TlsInv st) : TlsInv st.invalidate := by
  refine ⟨hinv.swf, hinv.ssort, hinv.send, hinv.dwf, hinv.dsort, hinv.dend, ?_⟩
  intro hc
  exact CacheStatus.noConfusion hc

theorem inv_get_data (st : TlsInitializer) (base : Nat) (r : TlsDataImage)
    (st' : TlsInitializer) (hinv : TlsInv st)
    (h : get_data st base = some (r, st')) : TlsInv st' := by
  rcases get_data_cases st base r st' h with ⟨_, _, rfl⟩ | ⟨_, _, cache, hcache, _, _⟩
  · exact hinv
  · rcases hcache with ⟨hc, hrb, rfl⟩ | ⟨_, rfl, _⟩
    · refine ⟨hinv.swf, hinv.ssort, hinv.send, hinv.dwf, hinv.dsort, hinv.dend, ?_⟩
      intro _
      exact hrb
    · exact hinv

theorem reach_inv (st : TlsInitializer) (h : Reach st) : TlsInv st := by
  induction h with
  | empty => exact inv_empty
  | addStatic _ hdata hok ih => exact inv_addStatic _ _ _ _ _ _ ih hdata hok
  | addDynamic _ hdata hok ih => exact inv_addDynamic _ _ _ _ _ ih hdata hok
  | invalidate _ ih => exact inv_invalidate _ ih
  | getData _ hok ih => exact inv_get_data _ _ _ _ ih hok

/-! ## Claims -/

/-- Claim C7: every successful `add_existing_static_tls_section` call, every
successful `add_new_dynamic_tls_section` call, and every `invalidate()` call
leaves `cache_status = Invalidated`; a registration call that returns an error
leaves the state unchanged; and `get_data` either leaves the state unchanged
or — only when the cache was `Invalidated` — transitions it to `Fresh` with
`data_cache` set to the layout rebuilt from the current (untouched)
registries.  No other operation sets `Fresh`. -/
theorem claim_C7 :
    (∀ st sec off tot sec' st',
      add_existing_static_tls_section st sec off tot = .ok sec' st' →
      st'.cache_status = CacheStatus.Invalidated) ∧
    (∀ st sectn a out st',
      add_new_dynamic_tls_section st sectn a = .ok out st' →
      st'.cache_status = CacheStatus.Invalidated) ∧
    (∀ st : TlsInitializer, st.invalidate.cache_status = CacheStatus.Invalidated) ∧
    (∀ st sec off tot st'',
      add_existing_static_tls_section st sec off tot = .err st'' → st'' = st) ∧
    (∀ st sectn a st'',
      add_new_dynamic_tls_section st sectn a = .err st'' → st'' = st) ∧
    (∀ st base r st', get_data st base = some (r, st') →
      st' = st ∨
      (st.cache_status = CacheStatus.Invalidated ∧
        st'.cache_status = CacheStatus.Fresh ∧
        rebuild st = some st'.data_cache ∧
        st'.static_section_offsets = st.static_section_offsets ∧
        st'.dynamic_section_offsets = st.dynamic_section_offsets)) := by
  refine ⟨?_, ?_, ?_, addStatic_err_eq, addDynamic_err_eq, ?_⟩
  · intro st sec off tot sec' st' h
    obtain ⟨_, _, _, _, _, _, _, _, hst'⟩ := addStatic_ok_inv _ _ _ _ _ _ h
    rw [hst']
  · intro st sectn a out st' h
    obtain ⟨sI, _, _, _, _, _, hst'⟩ := addDynamic_ok_inv _ _ _ _ _ h
    rw [hst']
  · intro st
    rfl
  · intro st base r st' h
    rcases get_data_cases st base r st' h with ⟨_, _, rfl⟩ | ⟨_, _, cache, hcache, _, _⟩
    · exact Or.inl rfl
    · rcases hcache with ⟨hc, hrb, rfl⟩ | ⟨_, rfl, _⟩
      · exact Or.inr ⟨hc, rfl, hrb, rfl, rfl⟩
      · exact Or.inl rfl

/-- Witness for C7: the concrete static registration of `wSec` into the empty
initializer leaves the cache invalidated. -/
theorem claim_C7_witness : wSt.cache_status = CacheStatus.Invalidated :=
  claim_C7.1 TlsInitializer.empty wSec 0 8 wSec' wSt (by decide)

/-- Claim C8: `get_data` never modifies the registries or the extent
counters — only `data_cache` and `cache_status` may change — and the returned
image's buffer is a value determined by the (post-call) cache with only the
self-pointer slot rewritten, i.e. a fresh copy rather than a view of the
cache, whose pointer is the address of that slot inside the copy. -/
theorem claim_C8 : ∀ st base r st', get_data st base = some (r, st') →
    st'.static_section_offsets = st.static_section_offsets ∧
    st'.end_of_static_sections = st.end_of_static_sections ∧
    st'.dynamic_section_offsets = st.dynamic_section_offsets ∧
    st'.end_of_dynamic_sections = st.end_of_dynamic_sections ∧
    (∀ l, r._data = some l →
      l = writeBytes st'.data_cache st.end_of_static_sections
        (neBytes (base + st.end_of_static_sections)) ∧
      r.ptr = base + st.end_of_static_sections) := by
  intro st base r st' h
  rcases get_data_cases st base r st' h with ⟨_, rfl, rfl⟩ | ⟨_, _, cache, hcache, hlen, rfl⟩
  · refine ⟨rfl, rfl, rfl, rfl, ?_⟩
    intro l hl
    exact absurd hl (by simp)
  · rcases hcache with ⟨_, _, rfl⟩ | ⟨_, rfl, rfl⟩
    · exact ⟨rfl, rfl, rfl, rfl, fun l hl => ⟨(Option.some.inj hl).symm, rfl⟩⟩
    · exact ⟨rfl, rfl, rfl, rfl, fun l hl => ⟨(Option.some.inj hl).symm, rfl⟩⟩

/-- Witness for C8: the concrete call `get_data wSt 0`. -/
theorem claim_C8_witness :
    wStF.static_section_offsets = wSt.static_section_offsets ∧
    wStF.end_of_static_sections = wSt.end_of_static_sections ∧
    wStF.dynamic_section_offsets = wSt.dynamic_section_offsets ∧
    wStF.end_of_dynamic_sections = wSt.end_of_dynamic_sections ∧
    (∀ l, wImg._data = some l →
      l = writeBytes wStF.data_cache wSt.end_of_static_sections
        (neBytes (0 + wSt.end_of_static_sections)) ∧
      wImg.ptr = 0 + wSt.end_of_static_sections) :=
  claim_C8 wSt 0 wImg wStF (by decide)

/-- Counterexample for C2 as stated: the request `[0, 8)` strictly contains
the already-stored range `[2, 4)` — the ranges intersect — yet
`add_existing_static_tls_section` succeeds, because the overlap check only
tests the two endpoints `offset` and `offset + size - 1` against the registry.
-/
theorem claim_C2_cex :
    (add_existing_static_tls_section ovSt ovSecB 0 8).isOk = true ∧
    (∃ e ∈ ovSt.static_section_offsets, e.start < 0 + ovSecB.size ∧ 0 < e.stop) := by
  decide

/-- Claim C2 (amended): under the panic-freedom side conditions
`1 ≤ offset + size < usize::MAX + 1` and `offset ≤ total_static_tls_size`,
`add_existing_static_tls_section` returns an error exactly when the point
`offset` or the point `offset + size - 1` lies inside an already-stored range
(a range strictly containing a stored range is NOT rejected), or when the
computed virtual address `(total - offset).wrapping_neg()` is not canonical;
and whenever it returns an error the state is unchanged. -/
theorem claim_C2 : ∀ st sec off tot, 1 ≤ off + sec.size → off + sec.size < U → off ≤ tot →
    (((add_existing_static_tls_section st sec off tot).isErr = true) ↔
      ((∃ e ∈ st.static_section_offsets, e.start ≤ off ∧ off < e.stop) ∨
       (∃ e ∈ st.static_section_offsets,
          e.start ≤ off + sec.size - 1 ∧ off + sec.size - 1 < e.stop) ∨
       isCanonical (wrappingNeg (tot - off)) = false)) ∧
    (∀ st'', add_existing_static_tls_section st sec off tot = .err st'' → st'' = st) := by
  intro st sec off tot h1 h2 h3
  refine ⟨?_, fun st'' h => addStatic_err_eq st sec off tot st'' h⟩
  have hA : checkedAdd off sec.size = some (off + sec.size) := by
    unfold checkedAdd
    rw [if_pos h2]
  unfold add_existing_static_tls_section
  simp only [hA]
  by_cases hc1 : containsKey st.static_section_offsets off
  · rw [if_pos hc1]
    simp only [RRes.isErr]
    exact ⟨fun _ => Or.inl ((containsKey_iff _ _).mp hc1), fun _ => trivial⟩
  · rw [if_neg hc1]
    have hS : checkedSub (off + sec.size) 1 = some (off + sec.size - 1) := by
      unfold checkedSub
      rw [if_pos h1]
    simp only [hS]
    by_cases hc2 : containsKey st.static_section_offsets (off + sec.size - 1)
    · rw [if_pos hc2]
      simp only [RRes.isErr]
      exact ⟨fun _ => Or.inr (Or.inl ((containsKey_iff _ _).mp hc2)), fun _ => trivial⟩
    · rw [if_neg hc2]
      have hS2 : checkedSub tot off = some (tot - off) := by
        unfold checkedSub
        rw [if_pos h3]
      simp only [hS2]
      rcases Bool.eq_false_or_eq_true (isCanonical (wrappingNeg (tot - off))) with hcan | hcan
      · have hva : VirtualAddress.new (wrappingNeg (tot - off)) =
            some (wrappingNeg (tot - off)) := by
          unfold VirtualAddress.new
          rw [if_pos hcan]
        simp only [hva]
        have hrhs : ¬((∃ e ∈ st.static_section_offsets, e.start ≤ off ∧ off < e.stop) ∨
            (∃ e ∈ st.static_section_offsets,
              e.start ≤ off + sec.size - 1 ∧ off + sec.size - 1 < e.stop) ∨
            isCanonical (wrappingNeg (tot - off)) = false) := by
          intro hrhs
          rcases hrhs with hx | hx | hx
          · exact hc1 ((containsKey_iff _ _).mpr hx)
          · exact hc2 ((containsKey_iff _ _).mpr hx)
          · rw [hcan] at hx
            exact Bool.noConfusion hx
        by_cases hlt : off < off + sec.size
        · rw [if_pos hlt]
          simp only [RRes.isErr]
          exact ⟨fun hx => absurd hx (by simp), fun hx => absurd hx hrhs⟩
        · rw [if_neg hlt]
          simp only [RRes.isErr]
          exact ⟨fun hx => absurd hx (by simp), fun hx => absurd hx hrhs⟩
      · have hva : VirtualAddress.new (wrappingNeg (tot - off)) = none := by
          unfold VirtualAddress.new
          rw [if_neg (by simp [hcan])]
        simp only [hva]
        simp only [RRes.isErr]
        exact ⟨fun _ => Or.inr (Or.inr hcan), fun _ => trivial⟩

/-- Witness for C2: the amended characterisation evaluated on the empty
registry at `offset = 0`, `size = 1`, `total = 0`. -/
theorem claim_C2_witness :
    (((add_existing_static_tls_section TlsInitializer.empty oneSec 0 0).isErr = true) ↔
      ((∃ e ∈ TlsInitializer.empty.static_section_offsets, e.start ≤ 0 ∧ 0 < e.stop) ∨
       (∃ e ∈ TlsInitializer.empty.static_section_offsets,
          e.start ≤ 0 + oneSec.size - 1 ∧ 0 + oneSec.size - 1 < e.stop) ∨
       isCanonical (wrappingNeg (0 - 0)) = false)) ∧
    (∀ st'', add_existing_static_tls_section TlsInitializer.empty oneSec 0 0 = .err st'' →
      st'' = TlsInitializer.empty) :=
  claim_C2 TlsInitializer.empty oneSec 0 0 (by decide) (by decide) (by decide)

/-- Claim C9: `add_existing_static_tls_section` has an undocumented failure
mode — when `(total_static_tls_size - offset).wrapping_neg()` is not a
canonical virtual address it returns an error even though the requested range
overlaps nothing, leaving the state unchanged; and since both registration
operations return `Result<_, ()>`, the overlap failure and the invalid-address
failure surface as the identical unit error value. -/
theorem claim_C9 :
    (∀ st sec off tot, 1 ≤ off + sec.size → off + sec.size < U → off ≤ tot →
      containsKey st.static_section_offsets off = false →
      containsKey st.static_section_offsets (off + sec.size - 1) = false →
      isCanonical (wrappingNeg (tot - off)) = false →
      add_existing_static_tls_section st sec off tot = .err st) ∧
    RRes.errUnit (add_existing_static_tls_section TlsInitializer.empty vaSec 0 (2 ^ 48)) =
      some () ∧
    RRes.errUnit (add_existing_static_tls_section ovSt ovSecC 2 4) = some () ∧
    RRes.errUnit (add_existing_static_tls_section TlsInitializer.empty vaSec 0 (2 ^ 48)) =
      RRes.errUnit (add_existing_static_tls_section ovSt ovSecC 2 4) := by
  refine ⟨?_, by decide, by decide, by decide⟩
  intro st sec off tot h1 h2 h3 hc1 hc2 hcan
  have hA : checkedAdd off sec.size = some (off + sec.size) := by
    unfold checkedAdd
    rw [if_pos h2]
  unfold add_existing_static_tls_section
  simp only [hA]
  rw [if_neg (by simp [hc1])]
  have hS : checkedSub (off + sec.size) 1 = some (off + sec.size - 1) := by
    unfold checkedSub
    rw [if_pos h1]
  simp only [hS]
  rw [if_neg (by simp [hc2])]
  have hS2 : checkedSub tot off = some (tot - off) := by
    unfold checkedSub
    rw [if_pos h3]
  simp only [hS2, VirtualAddress.new]
  rw [if_neg (by simp [hcan])]

/-- Witness for C9: registering a 4-byte section at offset 0 with a total
static size of `2^48` fails (the negated offset `2^64 - 2^48` is not
canonical) and leaves the empty initializer unchanged. -/
theorem claim_C9_witness :
    add_existing_static_tls_section TlsInitializer.empty vaSec 0 (2 ^ 48) =
      RRes.err TlsInitializer.empty :=
  claim_C9.1 TlsInitializer.empty vaSec 0 (2 ^ 48) (by decide) (by decide) (by decide)
    (by decide) (by decide) (by decide)

/-- Counterexample for C10 as stated: outside the claimed preconditions the
operation does not always panic — on a state whose registry covers offset 0,
the call with `offset = 0`, `size = 0` (so `offset + size = 0`) returns an
ordinary error because the short-circuiting overlap check fires before
`range.end - 1` is evaluated; and conversely the claimed preconditions are not
sufficient — with `offset = 5`, `size = 0`, `total = 10` they hold, yet the
operation panics (inserting the empty range `[5, 5)` into the `RangeMap`). -/
theorem claim_C10_cex :
    (add_existing_static_tls_section covSt zeroSec 0 0 = RRes.err covSt ∧
      0 + zeroSec.size = 0) ∧
    (1 ≤ 5 + zeroSec.size ∧ 5 ≤ 10 ∧
      add_existing_static_tls_section TlsInitializer.empty zeroSec 5 10 = RRes.halt) := by
  decide

/-- Claim C10 (amended): `add_existing_static_tls_section` is panic-free on
every state under the preconditions `1 ≤ section.size` (hence
`1 ≤ offset + size`), `offset + size ≤ usize::MAX`, and
`offset ≤ total_static_tls_size`; outside them there exist states — e.g. the
empty registry — where the underflows at `range.end - 1` and at
`total_static_tls_size - offset` make it panic instead of returning an error
value (though a state whose overlap check fires first still returns `Err`). -/
theorem claim_C10 :
    (∀ st sec off tot, 1 ≤ sec.size → off + sec.size < U → off ≤ tot →
      add_existing_static_tls_section st sec off tot ≠ RRes.halt) ∧
    add_existing_static_tls_section TlsInitializer.empty zeroSec 0 0 = RRes.halt ∧
    add_existing_static_tls_section TlsInitializer.empty zeroSec 1 0 = RRes.halt := by
  refine ⟨?_, by decide, by decide⟩
  intro st sec off tot hs h2 h3 hhalt
  unfold add_existing_static_tls_section at hhalt
  have hA : checkedAdd off sec.size = some (off + sec.size) := by
    unfold checkedAdd
    rw [if_pos h2]
  simp only [hA] at hhalt
  by_cases hc1 : containsKey st.static_section_offsets off
  · rw [if_pos hc1] at hhalt
    exact absurd hhalt (by simp)
  · rw [if_neg hc1] at hhalt
    have hS : checkedSub (off + sec.size) 1 = some (off + sec.size - 1) := by
      unfold checkedSub
      rw [if_pos (by omega)]
    simp only [hS] at hhalt
    by_cases hc2 : containsKey st.static_section_offsets (off + sec.size - 1)
    · rw [if_pos hc2] at hhalt
      exact absurd hhalt (by simp)
    · rw [if_neg hc2] at hhalt
      have hS2 : checkedSub tot off = some (tot - off) := by
        unfold checkedSub
        rw [if_pos h3]
      simp only [hS2] at hhalt
      rcases Bool.eq_false_or_eq_true (isCanonical (wrappingNeg (tot - off))) with hcan | hcan
      · have hva : VirtualAddress.new (wrappingNeg (tot - off)) =
            some (wrappingNeg (tot - off)) := by
          unfold VirtualAddress.new
          rw [if_pos hcan]
        simp only [hva] at hhalt
        rw [if_pos (show off < off + sec.size by omega)] at hhalt
        exact absurd hhalt (by simp)
      · have hva : VirtualAddress.new (wrappingNeg (tot - off)) = none := by
          unfold VirtualAddress.new
          rw [if_neg (by simp [hcan])]
        simp only [hva] at hhalt
        exact absurd hhalt (by simp)

/-- Witness for C10: under the amended preconditions the concrete call on the
empty initializer does not panic. -/
theorem claim_C10_witness :
    add_existing_static_tls_section TlsInitializer.empty oneSec 0 0 ≠ RRes.halt :=
  claim_C10.1 TlsInitializer.empty oneSec 0 0 (by decide) (by decide) (by decide)

/-- Counterexample for C3 as stated: with alignment 0 the call panics inside
`next_multiple_of` (division by zero) — it neither returns a first-fit offset
nor fails with an allocation error, although a gap exists. -/
theorem claim_C3_cex :
    add_new_dynamic_tls_section TlsInitializer.empty oneSec 0 = RRes.halt ∧
    dynGaps TlsInitializer.empty ≠ [] ∧
    (∀ st'', add_new_dynamic_tls_section TlsInitializer.empty oneSec 0 ≠ RRes.err st'') ∧
    (∀ out st'', add_new_dynamic_tls_section TlsInitializer.empty oneSec 0 ≠
      RRes.ok out st'') := by
  have h : add_new_dynamic_tls_section TlsInitializer.empty oneSec 0 = RRes.halt := by decide
  refine ⟨h, by decide, ?_, ?_⟩
  · intro st'' hc
    rw [h] at hc
    exact RRes.noConfusion hc
  · intro out st'' hc
    rw [h] at hc
    exact RRes.noConfusion hc

/-- Claim C3 (amended): whenever `add_new_dynamic_tls_section` returns an
offset, that offset is the aligned start of the first gap (in ascending gap
order in `[POINTER_SIZE, usize::MAX)`) that fits the section — never a later
gap — and is at least `POINTER_SIZE`; when it returns an error, either no gap
fits or the first-fit offset is not a canonical virtual address; conversely,
for a nonzero alignment, if no gap fits and no aligned-start computation
overflows, it returns the error with the state unchanged.  (With alignment 0,
section size 0, or a `usize` overflow in the scan the call panics instead;
the gap list is sorted by ascending start.) -/
theorem claim_C3 : ∀ st sectn a,
    (∀ off sec' st', add_new_dynamic_tls_section st sectn a = .ok (off, sec') st' →
      POINTER_SIZE ≤ off ∧ firstFitAt (dynGaps st) a sectn.size off) ∧
    (∀ st'', add_new_dynamic_tls_section st sectn a = .err st'' →
      st'' = st ∧
      ((∀ g ∈ dynGaps st, ¬(roundUpM g.1 a + sectn.size ≤ g.2)) ∨
        (∃ off, firstFitAt (dynGaps st) a sectn.size off ∧ isCanonical off = false))) ∧
    (a ≠ 0 →
      (∀ g ∈ dynGaps st, roundUpM g.1 a < U ∧ roundUpM g.1 a + sectn.size < U) →
      (∀ g ∈ dynGaps st, ¬(roundUpM g.1 a + sectn.size ≤ g.2)) →
      add_new_dynamic_tls_section st sectn a = .err st) ∧
    ((∀ ent ∈ st.dynamic_section_offsets, ent.start < ent.stop) →
      List.Pairwise (fun g g' => g.2 ≤ g'.1) (dynGaps st)) := by
  intro st sectn a
  refine ⟨?_, ?_, ?_, ?_⟩
  · intro off sec' st' h
    obtain ⟨sI, hfind, hU, hcan, hsz, hout, hst'⟩ := addDynamic_ok_inv _ _ _ _ _ h
    have hoff : off = sI := (Prod.ext_iff.mp hout).1
    subst hoff
    obtain ⟨hff, ha0⟩ := findFit_ok a sectn.size (dynGaps st) off hfind
    refine ⟨?_, hff⟩
    obtain ⟨pre, g, post, hsplit, hoffeq, hfit, hpre⟩ := hff
    have hg : g ∈ dynGaps st := by
      rw [hsplit]
      simp
    have hb := rmGaps_bounds (U - 1) st.dynamic_section_offsets POINTER_SIZE g hg
    have hru := le_roundUpM g.1 a ha0
    omega
  · intro st'' herr
    refine ⟨addDynamic_err_eq _ _ _ _ herr, ?_⟩
    unfold add_new_dynamic_tls_section at herr
    split at herr
    · exact absurd herr (by simp)
    · rename_i hfind
      left
      intro g hg
      exact findFit_err a sectn.size _ hfind g hg
    · rename_i sI hfind
      split at herr
      · exact absurd herr (by simp)
      rename_i rend hrend
      split at herr
      · rename_i hva
        have hcanf : isCanonical sI = false := by
          unfold VirtualAddress.new at hva
          rcases Bool.eq_false_or_eq_true (isCanonical sI) with hc | hc
          · rw [if_pos hc] at hva
            exact absurd hva (by simp)
          · exact hc
        right
        exact ⟨sI, (findFit_ok a sectn.size _ sI hfind).1, hcanf⟩
      · rename_i va hva
        by_cases hlt : sI < rend
        · rw [if_pos hlt] at herr
          exact absurd herr (by simp)
        · rw [if_neg hlt] at herr
          exact absurd herr (by simp)
  · intro ha0 hov hnf
    have hc : findFit a sectn.size
        (rmGaps (U - 1) POINTER_SIZE st.dynamic_section_offsets) = some none :=
      findFit_complete a sectn.size _ ha0 hov hnf
    unfold add_new_dynamic_tls_section
    simp only [hc]
  · intro hwf
    exact rmGaps_sorted (U - 1) st.dynamic_section_offsets hwf POINTER_SIZE

/-- Witness for C3: allocating `oneSec` with alignment 8 in the empty
initializer yields offset 8 — the aligned start of the first (only) gap. -/
theorem claim_C3_witness :
    POINTER_SIZE ≤ 8 ∧ firstFitAt (dynGaps TlsInitializer.empty) 8 oneSec.size 8 :=
  (claim_C3 TlsInitializer.empty oneSec 8).1 8 dynSec dynSt (by decide)

/-- Counterexample for C6 as stated: in the worked example the image's bytes
`[0..8)` are zero padding (the unregistered first half of the static TLS
block), not the static section's content — the static content sits at
`[8..16)`, the self-pointer slot at `[16..24)` and the dynamic content at
`[24..28)`. -/
theorem claim_C6_cex :
    get_data exStB 0 = some (⟨some exImg0, 16⟩,
      { exStB with data_cache := exCache, cache_status := CacheStatus.Fresh }) ∧
    exImg0.getD 0 0 = 0 ∧
    exSecS.data.getD 0 0 = 171 ∧
    exImg0.getD 0 0 ≠ exSecS.data.getD 0 0 := by
  decide

/-- Claim C6 (amended): in the worked example — empty initializer, one
data-kind static section of size 8 at link offset 8 with total static size
16, then one dynamic section of size 4 with alignment 8 — the static
section's assigned virtual offset is the two's-complement encoding of `-8`,
the dynamic offset is 8, and the image `get_data` produces is: zero padding
at bytes `[0..8)`, the static content at `[8..16)`, the self-pointer slot at
`[16..24)` holding the address of that slot inside the image (base + 16),
and the dynamic content at `[24..28)`. -/
theorem claim_C6 :
    (add_existing_static_tls_section TlsInitializer.empty exSecS 8 16 = .ok exSecS' exStA ∧
     exSecS'.virt_addr = U - 8 ∧
     add_new_dynamic_tls_section exStA exSecD 8 = .ok (8, exSecD') exStB) ∧
    (∀ base, get_data exStB base = some
      (⟨some (List.replicate 8 0 ++ exSecS'.data ++ neBytes (base + 16) ++ exSecD'.data),
        base + 16⟩,
       { exStB with data_cache := exCache, cache_status := CacheStatus.Fresh })) :=
  ⟨by decide, fun base => rfl⟩

/-- Counterexample for C5 as stated: a state with one dynamic section
(`[8, 9)`, one content byte) yields an image buffer of length 9 — the
dynamic extent already counts the reserved pointer slot — not
`end_of_static + end_of_dynamic + POINTER_SIZE = 17`. -/
theorem claim_C5_cex :
    get_data dynSt 100 = some (⟨some [100, 0, 0, 0, 0, 0, 0, 0, 7], 100⟩, dynStF) ∧
    ([100, 0, 0, 0, 0, 0, 0, 0, 7] : List Nat).length ≠
      dynSt.end_of_static_sections + dynSt.end_of_dynamic_sections + POINTER_SIZE := by
  decide

/-- Claim C5 (amended): on an invariant-respecting state (with the total
extent small enough that no `usize` overflow panic occurs), `get_data`
returns the degenerate image (no buffer, pointer 0) exactly when
`end_of_static_sections + end_of_dynamic_sections = 0`; otherwise the
returned buffer has length `end_of_static_sections + POINTER_SIZE` when
there are no dynamic sections, and `end_of_static_sections +
end_of_dynamic_sections` when there are (the dynamic extent already includes
the pointer-size reserved slot). -/
theorem claim_C5 : ∀ st b, TlsInv st →
    st.end_of_static_sections + st.end_of_dynamic_sections + POINTER_SIZE < U →
    ((st.end_of_static_sections + st.end_of_dynamic_sections = 0 →
        get_data st b = some (⟨none, 0⟩, st)) ∧
     (0 < st.end_of_static_sections + st.end_of_dynamic_sections →
        ∃ l ptr st', get_data st b = some (⟨some l, ptr⟩, st') ∧
          l.length = (if st.end_of_dynamic_sections = 0 then
              st.end_of_static_sections + POINTER_SIZE
            else st.end_of_static_sections + st.end_of_dynamic_sections))) := by
  intro st b hinv hU
  have hps : POINTER_SIZE = 8 := rfl
  refine ⟨fun h0 => get_data_zero st b h0, ?_⟩
  intro hpos
  obtain ⟨cache, hrb, hlenc, hstat, hslot, hdyn⟩ := rebuild_spec st hinv
  have heod : st.end_of_dynamic_sections ≠ 0 → POINTER_SIZE < st.end_of_dynamic_sections := by
    intro h0
    have hne : st.dynamic_section_offsets ≠ [] := by
      intro hc
      exact h0 ((dyn_empty_iff st hinv).mp hc)
    cases hdne : st.dynamic_section_offsets with
    | nil => exact absurd hdne hne
    | cons e l =>
      have h1 : e.stop ≤ supStop st.dynamic_section_offsets := by
        rw [hdne]
        exact stop_le_supStop e (e :: l) (by simp)
      obtain ⟨h2, h3, _⟩ := hinv.dwf e (by rw [hdne]; simp)
      rw [hinv.dend] at h1
      omega
  have hlen : st.end_of_static_sections + POINTER_SIZE ≤ cache.length := by
    rw [hlenc]
    omega
  have hlencache : cache.length = (if st.end_of_dynamic_sections = 0 then
      st.end_of_static_sections + POINTER_SIZE
    else st.end_of_static_sections + st.end_of_dynamic_sections) := by
    rw [hlenc]
    by_cases h0 : st.end_of_dynamic_sections = 0
    · rw [if_pos h0, if_pos h0]
      omega
    · rw [if_neg h0, if_neg h0]
      have := heod h0
      omega
  have hneb : (neBytes (b + st.end_of_static_sections)).length = POINTER_SIZE := by
    simp [neBytes]
  cases hcs : st.cache_status with
  | Invalidated =>
    refine ⟨writeBytes cache st.end_of_static_sections
        (neBytes (b + st.end_of_static_sections)),
      b + st.end_of_static_sections, _,
      get_data_invalidated st b cache hcs hrb hpos hU hlen, ?_⟩
    rw [writeBytes_length cache st.end_of_static_sections _ (by rw [hneb]; exact hlen)]
    exact hlencache
  | Fresh =>
    have hdc : st.data_cache = cache := Option.some.inj ((hinv.cfresh hcs).symm.trans hrb)
    refine ⟨writeBytes st.data_cache st.end_of_static_sections
        (neBytes (b + st.end_of_static_sections)),
      b + st.end_of_static_sections, st,
      get_data_fresh st b hcs hpos hU (by rw [hdc]; exact hlen), ?_⟩
    rw [writeBytes_length st.data_cache st.end_of_static_sections _
      (by rw [hneb, hdc]; exact hlen)]
    rw [hdc]
    exact hlencache

/-- Witness for C5: the concrete state `dynSt` (one dynamic section
`[8, 9)`). -/
theorem claim_C5_witness :
    ∃ l ptr st', get_data dynSt 100 = some (⟨some l, ptr⟩, st') ∧
      l.length = (if dynSt.end_of_dynamic_sections = 0 then
          dynSt.end_of_static_sections + POINTER_SIZE
        else dynSt.end_of_static_sections + dynSt.end_of_dynamic_sections) :=
  (claim_C5 dynSt 100
    ⟨by unfold entriesWF; decide, by unfold sortedReg; decide, by decide,
     by unfold entriesWF; decide, by unfold sortedReg; decide, by decide,
     by intro hc; exact CacheStatus.noConfusion hc⟩
    (by decide)).2 (by decide)

theorem neBytes_length (v : Nat) : (neBytes v).length = POINTER_SIZE := by
  simp [neBytes]

theorem writeBytes_pair_eq (cache : List Nat) (o : Nat) (bs1 bs2 : List Nat)
    (hb : bs1.length = bs2.length) (hlen : o + bs1.length ≤ cache.length) :
    (writeBytes cache o bs1).length = (writeBytes cache o bs2).length ∧
    (∀ j, j < o ∨ o + bs1.length ≤ j →
      (writeBytes cache o bs1).getD j 0 = (writeBytes cache o bs2).getD j 0) := by
  constructor
  · rw [writeBytes_length cache o bs1 hlen, writeBytes_length cache o bs2 (by omega)]
  · intro j hj
    rcases hj with hj | hj
    · rw [writeBytes_getD_lt cache o bs1 j hj (by omega),
        writeBytes_getD_lt cache o bs2 j hj (by omega)]
    · rw [writeBytes_getD_ge cache o bs1 j hj hlen,
        writeBytes_getD_ge cache o bs2 j (by omega) (by omega)]

/-- Claim C4: two successive `get_data` calls with no intervening mutation —
and likewise when an `invalidate()` precedes the first call — return buffers
of equal length agreeing on every byte outside the pointer-size self-pointer
slot at offset `end_of_static_sections`, and each image's `ptr` equals the
address of that slot within its own buffer (its base address plus
`end_of_static_sections`). -/
theorem claim_C4 :
    (∀ st b1 b2 r1 st1, get_data st b1 = some (r1, st1) →
      ∃ r2 st2, get_data st1 b2 = some (r2, st2) ∧
        ((r1._data = none ∧ r2._data = none ∧ r1.ptr = 0 ∧ r2.ptr = 0) ∨
          (∃ l1 l2, r1._data = some l1 ∧ r2._data = some l2 ∧
            l1.length = l2.length ∧
            (∀ j, j < st.end_of_static_sections ∨
                st.end_of_static_sections + POINTER_SIZE ≤ j →
              l1.getD j 0 = l2.getD j 0) ∧
            r1.ptr = b1 + st.end_of_static_sections ∧
            r2.ptr = b2 + st.end_of_static_sections))) ∧
    (∀ st b1 b2 r1 st1,
      get_data (TlsInitializer.invalidate st) b1 = some (r1, st1) →
      ∃ r2 st2, get_data st1 b2 = some (r2, st2) ∧
        ((r1._data = none ∧ r2._data = none ∧ r1.ptr = 0 ∧ r2.ptr = 0) ∨
          (∃ l1 l2, r1._data = some l1 ∧ r2._data = some l2 ∧
            l1.length = l2.length ∧
            (∀ j, j < st.end_of_static_sections ∨
                st.end_of_static_sections + POINTER_SIZE ≤ j →
              l1.getD j 0 = l2.getD j 0) ∧
            r1.ptr = b1 + st.end_of_static_sections ∧
            r2.ptr = b2 + st.end_of_static_sections))) := by
  have main : ∀ st b1 b2 r1 st1, get_data st b1 = some (r1, st1) →
      ∃ r2 st2, get_data st1 b2 = some (r2, st2) ∧
        ((r1._data = none ∧ r2._data = none ∧ r1.ptr = 0 ∧ r2.ptr = 0) ∨
          (∃ l1 l2, r1._data = some l1 ∧ r2._data = some l2 ∧
            l1.length = l2.length ∧
            (∀ j, j < st.end_of_static_sections ∨
                st.end_of_static_sections + POINTER_SIZE ≤ j →
              l1.getD j 0 = l2.getD j 0) ∧
            r1.ptr = b1 + st.end_of_static_sections ∧
            r2.ptr = b2 + st.end_of_static_sections)) := by
    intro st b1 b2 r1 st1 h1
    rcases get_data_cases st b1 r1 st1 h1 with ⟨h0, rfl, rfl⟩ |
      ⟨hpos, hU2, cache, hcache, hlen, rfl⟩
    · exact ⟨⟨none, 0⟩, st1, get_data_zero st1 b2 h0, Or.inl ⟨rfl, rfl, rfl, rfl⟩⟩
    · obtain ⟨hlenEq, houts⟩ := writeBytes_pair_eq cache st.end_of_static_sections
        (neBytes (b1 + st.end_of_static_sections))
        (neBytes (b2 + st.end_of_static_sections))
        (by rw [neBytes_length, neBytes_length])
        (by rw [neBytes_length]; exact hlen)
      rcases hcache with ⟨hcI, hrb, rfl⟩ | ⟨hcF, rfl, rfl⟩
      · refine ⟨_, _,
          get_data_fresh { st with data_cache := cache, cache_status := CacheStatus.Fresh }
            b2 rfl hpos hU2 hlen,
          Or.inr ⟨_, _, rfl, rfl, hlenEq, ?_, rfl, rfl⟩⟩
        intro j hj
        refine houts j ?_
        rw [neBytes_length]
        exact hj
      · refine ⟨_, _, get_data_fresh st1 b2 hcF hpos hU2 hlen,
          Or.inr ⟨_, _, rfl, rfl, hlenEq, ?_, rfl, rfl⟩⟩
        intro j hj
        refine houts j ?_
        rw [neBytes_length]
        exact hj
  exact ⟨main, fun st => main (TlsInitializer.invalidate st)⟩

/-- Witness for C4: the two successive concrete calls `get_data wSt 0` and
`get_data wStF 100`. -/
theorem claim_C4_witness :
    ∃ r2 st2, get_data wStF 100 = some (r2, st2) ∧
      ((wImg._data = none ∧ r2._data = none ∧ wImg.ptr = 0 ∧ r2.ptr = 0) ∨
        (∃ l1 l2, wImg._data = some l1 ∧ r2._data = some l2 ∧
          l1.length = l2.length ∧
          (∀ j, j < wSt.end_of_static_sections ∨
              wSt.end_of_static_sections + POINTER_SIZE ≤ j →
            l1.getD j 0 = l2.getD j 0) ∧
          wImg.ptr = 0 + wSt.end_of_static_sections ∧
          r2.ptr = 100 + wSt.end_of_static_sections)) :=
  claim_C4.1 wSt 0 100 wImg wStF (by decide)

theorem eod_lower (st : TlsInitializer) (hinv : TlsInv st)
    (h0 : st.end_of_dynamic_sections ≠ 0) :
    POINTER_SIZE < st.end_of_dynamic_sections := by
  have hne : st.dynamic_section_offsets ≠ [] := by
    intro hc
    exact h0 ((dyn_empty_iff st hinv).mp hc)
  cases hdne : st.dynamic_section_offsets with
  | nil => exact absurd hdne hne
  | cons e rest =>
    have h1 : e.stop ≤ supStop st.dynamic_section_offsets := by
      rw [hdne]
      exact stop_le_supStop e (e :: rest) (by simp)
    obtain ⟨h2, h3, _⟩ := hinv.dwf e (by rw [hdne]; simp)
    rw [hinv.dend] at h1
    omega

/-- Claim C1: on every state reachable by successful registrations, every
image buffer returned by `get_data` holds, at each offset covered by a
registered section, exactly that section's bytes — the literal backing
content for data-kind sections and zeroes for zero-fill sections — with each
static section at its registered offset, the pointer-size self-pointer slot
at offset `end_of_static_sections` (holding the image's `ptr` value), each
dynamic section at image offset `end_of_static_sections` plus its
dynamic-registry offset, and every byte not covered by any registered section
and outside the self-pointer slot equal to zero. -/
theorem claim_C1 : ∀ st, Reach st → ∀ base l ptr st',
    get_data st base = some (⟨some l, ptr⟩, st') →
    ((∀ e ∈ st.static_section_offsets, ∀ i, i < e.sec.size →
        l.getD (e.start + i) 0 = secContentByte e.sec i) ∧
     (∀ i, i < POINTER_SIZE →
        l.getD (st.end_of_static_sections + i) 0 = (neBytes ptr).getD i 0) ∧
     (∀ e ∈ st.dynamic_section_offsets, ∀ i, i < e.sec.size →
        l.getD (st.end_of_static_sections + e.start + i) 0 = secContentByte e.sec i) ∧
     (∀ j, j < l.length →
        (j < st.end_of_static_sections ∨ st.end_of_static_sections + POINTER_SIZE ≤ j) →
        (∀ e ∈ st.static_section_offsets, ¬(e.start ≤ j ∧ j < e.stop)) →
        (∀ e ∈ st.dynamic_section_offsets,
          ¬(st.end_of_static_sections + e.start ≤ j ∧
            j < st.end_of_static_sections + e.stop)) →
        l.getD j 0 = 0)) := by
  intro st hre base l ptr st' h
  have hinv := reach_inv st hre
  rcases get_data_cases st base ⟨some l, ptr⟩ st' h with ⟨_, himg, _⟩ |
    ⟨hpos, hU2, cache, hcache, hlen, himg⟩
  · exact absurd himg (by simp)
  · obtain ⟨hl, hptr⟩ := TlsDataImage.mk.inj himg
    have hl' : l = writeBytes cache st.end_of_static_sections
        (neBytes (base + st.end_of_static_sections)) := Option.some.inj hl
    subst hptr
    subst hl'
    have hrb : rebuild st = some cache := by
      rcases hcache with ⟨_, hrb, _⟩ | ⟨hcF, _, rfl⟩
      · exact hrb
      · exact hinv.cfresh hcF
    obtain ⟨cache2, hrb2, hlenc, hstat, hslot, hdyn⟩ := rebuild_spec st hinv
    have hc2 : cache2 = cache := Option.some.inj (hrb2.symm.trans hrb)
    rw [hc2] at hlenc hstat hslot hdyn
    refine ⟨?_, ?_, ?_, ?_⟩
    · intro e he i hi
      obtain ⟨_, hss, hsize, _⟩ := hinv.swf e he
      have hstop : e.stop ≤ st.end_of_static_sections := by
        rw [← hinv.send]
        exact stop_le_supStop e _ he
      have hj : e.start + i < st.end_of_static_sections := by omega
      rw [writeBytes_getD_lt cache st.end_of_static_sections _ _ hj (by omega)]
      rw [hstat _ hj]
      rw [regByte_of_mem st.static_section_offsets e (e.start + i) hinv.ssort
        (fun z hz => (hinv.swf z hz).2.1) he (by omega) (by omega)]
      rw [entryByte]
      congr 1
      omega
    · intro i hi
      rw [writeBytes_getD_slot cache st.end_of_static_sections _ i
        (by rw [neBytes_length]; exact hi) (by omega)]
    · intro e he i hi
      obtain ⟨h8s, hss, hsize, _⟩ := hinv.dwf e he
      have hne0 : st.end_of_dynamic_sections ≠ 0 := by
        intro hc
        have hmt : st.dynamic_section_offsets = [] := (dyn_empty_iff st hinv).mpr hc
        rw [hmt] at he
        simp at he
      have hstop : e.stop ≤ st.end_of_dynamic_sections := by
        rw [← hinv.dend]
        exact stop_le_supStop e _ he
      have hb := hdyn (e.start + i) (by omega) (by rw [if_neg hne0]; omega)
      have hidx : st.end_of_static_sections + e.start + i =
          st.end_of_static_sections + (e.start + i) := by omega
      rw [hidx]
      rw [writeBytes_getD_ge cache st.end_of_static_sections _ _
        (by rw [neBytes_length]; omega) (by rw [neBytes_length]; exact hlen)]
      rw [hb]
      rw [regByte_of_mem st.dynamic_section_offsets e (e.start + i) hinv.dsort
        (fun z hz => (hinv.dwf z hz).2.1) he (by omega) (by omega)]
      rw [entryByte]
      congr 1
      omega
    · intro j hjlen hside hnstat hndyn
      have hlenl : (writeBytes cache st.end_of_static_sections
          (neBytes (base + st.end_of_static_sections))).length = cache.length :=
        writeBytes_length _ _ _ (by rw [neBytes_length]; exact hlen)
      rcases hside with hj | hj
      · rw [writeBytes_getD_lt cache st.end_of_static_sections _ _ hj (by omega)]
        rw [hstat j hj]
        exact regByte_of_uncovered _ _ hnstat
      · rw [writeBytes_getD_ge cache st.end_of_static_sections _ _
          (by rw [neBytes_length]; exact hj) (by rw [neBytes_length]; exact hlen)]
        have hjc : j < cache.length := by
          rw [← hlenl]
          exact hjlen
        by_cases h0 : st.end_of_dynamic_sections = 0
        · exfalso
          rw [hlenc, if_pos h0] at hjc
          omega
        · rw [hlenc, if_neg h0] at hjc
          have h8lt := eod_lower st hinv h0
          have hb := hdyn (j - st.end_of_static_sections) (by omega) (by rw [if_neg h0]; omega)
          have hidx : st.end_of_static_sections + (j - st.end_of_static_sections) = j := by
            omega
          rw [hidx] at hb
          rw [hb]
          apply regByte_of_uncovered
          intro e he hc
          obtain ⟨hc1, hc2⟩ := hc
          exact hndyn e he ⟨by omega, by omega⟩

/-- Witness for C1: the reachable state `wSt` (one static data section at
`[0, 8)`) and the concrete image `get_data wSt 0` returns. -/
theorem claim_C1_witness :
    (∀ e ∈ wSt.static_section_offsets, ∀ i, i < e.sec.size →
        wL.getD (e.start + i) 0 = secContentByte e.sec i) ∧
    (∀ i, i < POINTER_SIZE →
        wL.getD (wSt.end_of_static_sections + i) 0 = (neBytes 8).getD i 0) ∧
    (∀ e ∈ wSt.dynamic_section_offsets, ∀ i, i < e.sec.size →
        wL.getD (wSt.end_of_static_sections + e.start + i) 0 = secContentByte e.sec i) ∧
    (∀ j, j < wL.length →
        (j < wSt.end_of_static_sections ∨ wSt.end_of_static_sections + POINTER_SIZE ≤ j) →
        (∀ e ∈ wSt.static_section_offsets, ¬(e.start ≤ j ∧ j < e.stop)) →
        (∀ e ∈ wSt.dynamic_section_offsets,
          ¬(wSt.end_of_static_sections + e.start ≤ j ∧
            j < wSt.end_of_static_sections + e.stop)) →
        wL.getD j 0 = 0) :=
  claim_C1 wSt
    (Reach.addStatic Reach.empty
      (by decide : wSec.typ = SectionType.TlsData → wSec.size ≤ wSec.data.length)
      (by decide : add_existing_static_tls_section TlsInitializer.empty wSec 0 8 =
        RRes.ok wSec' wSt))
    0 wL 8 wStF (by decide)
